import Mathlib

/-!
Verification of the config-backup tool (`src/config-backup.py`).

The development shallowly embeds the program's core:

* a tree model of the file system under the backup root (`FsNode`), with the
  `pathlib`/`shutil` operations the script uses (`mkdirAt` for
  `Path.mkdir(exist_ok=True)`, `copytreeAt` for `shutil.copytree`, `copy2At`
  for `shutil.copy2`, `removeAt` for `shutil.rmtree`/`Path.unlink`);
* the retention logic `cleanup_old_backups` (keep the `MAX_BACKUPS` newest
  generation folders, delete the rest);
* the mirror publisher `update_for_git`;
* the orchestrator `backup_items` (one item at a time, aggregate counts);
* the interactive selection parser `get_user_selection`.

Failures that Python reports as exceptions are modelled by `Option`:
`none` is an exception escaping the modelled call.  String comparison is
modelled by an explicit lexicographic comparison on code points, which is
what Python's `<`/`sorted` do on `str`.
-/

/-- Lexicographic strict comparison of char lists by code point, as Python
compares strings. -/
def strLtB : List Char → List Char → Bool
  | [], [] => false
  | [], _ :: _ => true
  | _ :: _, [] => false
  | a :: as, b :: bs =>
    if a.toNat < b.toNat then true
    else if b.toNat < a.toNat then false
    else strLtB as bs

/-- Lexicographic weak comparison of char lists by code point. -/
def strLeB : List Char → List Char → Bool
  | [], _ => true
  | _ :: _, [] => false
  | a :: as, b :: bs =>
    if a.toNat < b.toNat then true
    else if b.toNat < a.toNat then false
    else strLeB as bs

/-- Python's `s1 < s2` on strings. -/
def pyLt (s t : String) : Prop := strLtB s.data t.data = true

/-- Python's `s1 <= s2` on strings. -/
def pyLe (s t : String) : Prop := strLeB s.data t.data = true

instance (s t : String) : Decidable (pyLt s t) := by unfold pyLt; infer_instance

instance (s t : String) : Decidable (pyLe s t) := by unfold pyLe; infer_instance

/-- The relation a descending (newest-first) sort uses: `geStr a b` says `a`
is at least `b` in Python's string order. -/
def geStr (s t : String) : Prop := pyLe t s

instance (s t : String) : Decidable (geStr s t) := by unfold geStr; infer_instance

theorem strLeB_refl (as : List Char) : strLeB as as = true := by
  induction as with
  | nil => rfl
  | cons a as ih => simp [strLeB, ih]

theorem strLeB_total (as bs : List Char) : strLeB as bs = true ∨ strLeB bs as = true := by
  induction as generalizing bs with
  | nil => left; rfl
  | cons a as ih =>
    cases bs with
    | nil => right; rfl
    | cons b bs =>
      rcases Nat.lt_trichotomy a.toNat b.toNat with h | h | h
      · left; simp [strLeB, h]
      · rcases ih bs with h2 | h2
        · left; simp [strLeB, h.le.not_lt, h2, h.symm.le.not_lt]
        · right; simp [strLeB, h.le.not_lt, h2, h.symm.le.not_lt]
      · right; simp [strLeB, h]

theorem strLeB_trans {as bs cs : List Char} (h1 : strLeB as bs = true)
    (h2 : strLeB bs cs = true) : strLeB as cs = true := by
  induction as generalizing bs cs with
  | nil => rfl
  | cons a as ih =>
    cases bs with
    | nil => simp [strLeB] at h1
    | cons b bs =>
      cases cs with
      | nil => simp [strLeB] at h2
      | cons c cs =>
        by_cases hab : a.toNat < b.toNat
        · by_cases hbc : b.toNat < c.toNat
          · simp [strLeB, Nat.lt_trans hab hbc]
          · by_cases hcb : c.toNat < b.toNat
            · simp [strLeB, hbc, hcb] at h2
            · have hbceq : b.toNat = c.toNat := Nat.le_antisymm (Nat.le_of_not_lt hcb) (Nat.le_of_not_lt hbc)
              simp [strLeB, hbceq ▸ hab]
        · by_cases hba : b.toNat < a.toNat
          · simp [strLeB, hab, hba] at h1
          · have habeq : a.toNat = b.toNat := Nat.le_antisymm (Nat.le_of_not_lt hba) (Nat.le_of_not_lt hab)
            by_cases hbc : b.toNat < c.toNat
            · simp [strLeB, habeq ▸ hbc]
            · by_cases hcb : c.toNat < b.toNat
              · simp [strLeB, hbc, hcb] at h2
              · simp [strLeB, hab, hba] at h1
                simp [strLeB, hbc, hcb] at h2
                simp [strLeB, habeq ▸ hbc, habeq ▸ hcb, ih h1 h2]

theorem char_eq_of_toNat_eq {a b : Char} (h : a.toNat = b.toNat) : a = b := by
  cases a with
  | mk av ah =>
    cases b with
    | mk bv bh =>
      have hv : av = bv := UInt32.ext h
      subst hv
      rfl

theorem strLeB_antisymm {as bs : List Char} (h1 : strLeB as bs = true)
    (h2 : strLeB bs as = true) : as = bs := by
  induction as generalizing bs with
  | nil =>
    cases bs with
    | nil => rfl
    | cons b bs => simp [strLeB] at h2
  | cons a as ih =>
    cases bs with
    | nil => simp [strLeB] at h1
    | cons b bs =>
      by_cases hab : a.toNat < b.toNat
      · simp [strLeB, hab, Nat.lt_asymm hab] at h2
      · by_cases hba : b.toNat < a.toNat
        · simp [strLeB, hab, hba] at h1
        · have habeq : a.toNat = b.toNat := Nat.le_antisymm (Nat.le_of_not_lt hba) (Nat.le_of_not_lt hab)
          simp [strLeB, hab, hba] at h1
          simp [strLeB, hba, hab] at h2
          rw [char_eq_of_toNat_eq habeq, ih h1 h2]

theorem strLtB_iff_le_ne {as bs : List Char} :
    strLtB as bs = true ↔ strLeB as bs = true ∧ as ≠ bs := by
  induction as generalizing bs with
  | nil =>
    cases bs with
    | nil => simp [strLtB, strLeB]
    | cons b bs => simp [strLtB, strLeB]
  | cons a as ih =>
    cases bs with
    | nil => simp [strLtB, strLeB]
    | cons b bs =>
      by_cases hab : a.toNat < b.toNat
      · have : a ≠ b := fun he => absurd (he ▸ hab) (Nat.lt_irrefl _)
        simp [strLtB, strLeB, hab, this]
      · by_cases hba : b.toNat < a.toNat
        · simp [strLtB, strLeB, hab, hba]
        · have habeq : a = b := char_eq_of_toNat_eq
            (Nat.le_antisymm (Nat.le_of_not_lt hba) (Nat.le_of_not_lt hab))
          subst habeq
          simp [strLtB, strLeB, hab, ih]

theorem pyLt_iff_le_ne {s t : String} : pyLt s t ↔ pyLe s t ∧ s ≠ t := by
  unfold pyLt pyLe
  rw [strLtB_iff_le_ne]
  constructor
  · rintro ⟨h1, h2⟩
    exact ⟨h1, fun he => h2 (congrArg String.data he)⟩
  · rintro ⟨h1, h2⟩
    refine ⟨h1, fun he => h2 ?_⟩
    cases s; cases t; simp_all

instance : IsTotal String geStr :=
  ⟨fun s t => by unfold geStr pyLe; exact strLeB_total t.data s.data⟩

instance : IsTrans String geStr :=
  ⟨fun a b c h1 h2 => by
    unfold geStr pyLe at *
    exact strLeB_trans h2 h1⟩

instance : IsAntisymm String geStr :=
  ⟨fun s t h1 h2 => by
    cases s; cases t
    have := strLeB_antisymm h2 h1
    simp_all⟩

instance : IsRefl String geStr := ⟨fun s => strLeB_refl s.data⟩

theorem geStr_of_pyLt {s t : String} (h : pyLt s t) : geStr t s :=
  (pyLt_iff_le_ne.mp h).1

theorem pyLt_of_geStr_ne {s t : String} (h : geStr s t) (hne : t ≠ s) : pyLt t s :=
  pyLt_iff_le_ne.mpr ⟨h, hne⟩

theorem pyLt_irrefl (s : String) : ¬ pyLt s s := by
  intro h
  exact (pyLt_iff_le_ne.mp h).2 rfl

theorem pyLt_trans {s t u : String} (h1 : pyLt s t) (h2 : pyLt t u) : pyLt s u := by
  rcases pyLt_iff_le_ne.mp h1 with ⟨l1, n1⟩
  rcases pyLt_iff_le_ne.mp h2 with ⟨l2, n2⟩
  refine pyLt_iff_le_ne.mpr ⟨strLeB_trans l1 l2, fun he => ?_⟩
  subst he
  have : s.data = t.data := strLeB_antisymm l1 l2
  apply n1
  cases s; cases t; simp_all

/-- Sorting a list of names descending (newest first), as
`sorted(..., reverse=True)` does in the script. -/
def sortDesc (l : List String) : List String := List.insertionSort geStr l

theorem sortDesc_sorted (l : List String) : List.Sorted geStr (sortDesc l) :=
  List.sorted_insertionSort geStr l

theorem sortDesc_perm (l : List String) : List.Perm (sortDesc l) l :=
  List.perm_insertionSort geStr l

theorem mem_sortDesc {x : String} {l : List String} : x ∈ sortDesc l ↔ x ∈ l :=
  (sortDesc_perm l).mem_iff

theorem sortDesc_nodup {l : List String} (h : l.Nodup) : (sortDesc l).Nodup :=
  ((sortDesc_perm l).nodup_iff).mpr h

example : sortDesc ["a", "c", "b"] = ["c", "b", "a"] := by decide

/-!
## File-system model

A node is a file with contents or a directory with a list of named children.
The backup root (`~/dotfiles` in the script) is modelled as an `FsNode`
(always a directory in every reachable state); paths are lists of names.
-/

/-- A file-system node: a file with contents, or a directory with named
children. -/
inductive FsNode where
  | file (content : String)
  | dir (children : List (String × FsNode))

/-- Look up a directory entry by name (first match). -/
def getEntry (cs : List (String × FsNode)) (n : String) : Option FsNode :=
  match cs with
  | [] => none
  | e :: rest => if e.1 = n then some e.2 else getEntry rest n

/-- Create or replace the entry named `n` (replace in place, else append). -/
def setEntry (cs : List (String × FsNode)) (n : String) (v : FsNode) :
    List (String × FsNode) :=
  match cs with
  | [] => [(n, v)]
  | e :: rest => if e.1 = n then (n, v) :: rest else e :: setEntry rest n v

/-- Delete every entry named `n`. -/
def delEntry (cs : List (String × FsNode)) (n : String) : List (String × FsNode) :=
  cs.filter fun e => ! decide (e.1 = n)

/-- Names of all entries. -/
def namesOf (cs : List (String × FsNode)) : List String := cs.map Prod.fst

/-- Names of the entries that are directories, in directory order; this is
`[d for d in folder.iterdir() if d.is_dir()]` of the script. -/
def dirNames (cs : List (String × FsNode)) : List String :=
  cs.filterMap fun e =>
    match e.2 with
    | FsNode.dir _ => some e.1
    | FsNode.file _ => none

/-- Resolve a path from a node; `none` when a component is missing or a
non-final component is a file. -/
def FsNode.get : FsNode → List String → Option FsNode
  | node, [] => some node
  | FsNode.dir cs, n :: rest =>
    match getEntry cs n with
    | some c => FsNode.get c rest
    | none => none
  | FsNode.file _, _ :: _ => none

/-- `Path.mkdir(exist_ok=True)` (`parents=False`): the parent must exist and
be a directory; an existing directory at the path is accepted, an existing
file raises `FileExistsError` (`none`). -/
def mkdirAt : FsNode → List String → Option FsNode
  | FsNode.dir cs, [] => some (FsNode.dir cs)
  | FsNode.file _, [] => none
  | FsNode.dir cs, [n] =>
    match getEntry cs n with
    | some (FsNode.dir _) => some (FsNode.dir cs)
    | some (FsNode.file _) => none
    | none => some (FsNode.dir (setEntry cs n (FsNode.dir [])))
  | FsNode.dir cs, n :: m :: rest =>
    match getEntry cs n with
    | some c => (mkdirAt c (m :: rest)).map fun cn => FsNode.dir (setEntry cs n cn)
    | none => none
  | FsNode.file _, _ :: _ => none

/-- `shutil.copytree(src, dst, symlinks=True)`: runs `os.makedirs(dst)`
first, so it creates intermediate directories, and raises (`none`) when
`dst` already exists; then copies the whole tree (in the model the copy is
the source node itself). -/
def copytreeAt : FsNode → List String → FsNode → Option FsNode
  | _, [], _ => none
  | FsNode.dir cs, [n], src =>
    match getEntry cs n with
    | some _ => none
    | none => some (FsNode.dir (setEntry cs n src))
  | FsNode.dir cs, n :: m :: rest, src =>
    match getEntry cs n with
    | some c => (copytreeAt c (m :: rest) src).map fun cn => FsNode.dir (setEntry cs n cn)
    | none =>
      (copytreeAt (FsNode.dir []) (m :: rest) src).map fun cn =>
        FsNode.dir (setEntry cs n cn)
  | FsNode.file _, _ :: _, _ => none

/-- Write file contents at a path (`shutil.copyfile` step of `copy2`): the
parent must exist and be a directory, an existing file is overwritten, an
existing directory raises (`none`). -/
def writeFile : FsNode → List String → String → Option FsNode
  | _, [], _ => none
  | FsNode.dir cs, [n], c =>
    match getEntry cs n with
    | some (FsNode.dir _) => none
    | _ => some (FsNode.dir (setEntry cs n (FsNode.file c)))
  | FsNode.dir cs, n :: m :: rest, c =>
    match getEntry cs n with
    | some child => (writeFile child (m :: rest) c).map fun cn => FsNode.dir (setEntry cs n cn)
    | none => none
  | FsNode.file _, _ :: _, _ => none

/-- `shutil.copy2(src, dst)` for a file source with base name `base` and
contents `c`: when `dst` is an existing directory the file is copied into it
under `base` (shutil joins the base name), otherwise to `dst` itself. -/
def copy2At (root : FsNode) (dst : List String) (base : String) (c : String) :
    Option FsNode :=
  match root.get dst with
  | some (FsNode.dir _) => writeFile root (dst ++ [base]) c
  | _ => writeFile root dst c

/-- Remove the entry at a path (`shutil.rmtree` on a directory,
`Path.unlink` on a file; the script checks existence first). `none` when the
path does not exist. -/
def removeAt : FsNode → List String → Option FsNode
  | _, [] => none
  | FsNode.dir cs, [n] =>
    match getEntry cs n with
    | some _ => some (FsNode.dir (delEntry cs n))
    | none => none
  | FsNode.dir cs, n :: m :: rest =>
    match getEntry cs n with
    | some c => (removeAt c (m :: rest)).map fun cn => FsNode.dir (setEntry cs n cn)
    | none => none
  | FsNode.file _, _ :: _ => none

/-- Does an optional lookup result denote "absent, or present as a
directory"? (`mkdir(exist_ok=True)` succeeds exactly in this case.) -/
def absentOrDir : Option FsNode → Prop
  | none => True
  | some (FsNode.dir _) => True
  | some (FsNode.file _) => False

/-!
## Retention (`MAX_BACKUPS`, `cleanup_old_backups`) and the core operations
-/

/-- Line 10: maximum number of backups to keep per program. -/
def MAX_BACKUPS : Nat := 5

/-- The eviction selection of `cleanup_old_backups` (lines 89-96), with
`MAX_BACKUPS` generalised to a `maxKeep` parameter as in the spec's
`selectEvictions`: given the newest-first list, the backups to delete are
`backups[maxKeep:]` when there are more than `maxKeep`, else none. -/
def selectEvictions (backups : List String) (maxKeep : Nat) : List String :=
  if backups.length > maxKeep then backups.drop maxKeep else []

/-- Effect of `cleanup_old_backups` (lines 83-103) on the children of one
program folder: sort the subdirectory names newest first, and `rmtree` each
selected eviction (each deletion succeeds in the model). -/
def cleanup_children (cs : List (String × FsNode)) : List (String × FsNode) :=
  let backups := sortDesc (dirNames cs)
  let backups_to_delete := selectEvictions backups MAX_BACKUPS
  cs.filter fun e => ! decide (e.1 ∈ backups_to_delete)

/-- `cleanup_old_backups(program_folder)` on the backup root: returns
unchanged when the program folder does not exist (lines 85-86); `iterdir` on
a file raises (`none`); otherwise rewrites the folder's children. -/
def cleanup_old_backups (root : FsNode) (program : String) : Option FsNode :=
  match root with
  | FsNode.file _ => none
  | FsNode.dir cs =>
    match getEntry cs program with
    | none => some root
    | some (FsNode.file _) => none
    | some (FsNode.dir pcs) =>
      some (FsNode.dir (setEntry cs program (FsNode.dir (cleanup_children pcs))))

/-- The sorted newest-first listing of one item's generations (the `backups`
expression of `cleanup_old_backups`, line 89-92; non-directory entries are
ignored). -/
def listGenerations (cs : List (String × FsNode)) : List String :=
  sortDesc (dirNames cs)

/-- `update_for_git(item_name, source)` (lines 105-131) on the backup root:
make the `for-git` folder, remove any previous copy of the item, then copy
the source.  The `mkdir`/removal steps are outside the function's `try`, so
their exceptions escape (`none`; in the model `none` only arises from the
first step, which leaves the state unchanged).  The copy is inside the
`try`: on success the function returns `true`, on a copy error it would
return `false` with the state unchanged. -/
def update_for_git (item_name : String) (source : FsNode) (root : FsNode) :
    Option (FsNode × Bool) :=
  match mkdirAt root ["for-git"] with
  | none => none
  | some root1 =>
    match
      (match root1.get ["for-git", item_name] with
       | some _ => removeAt root1 ["for-git", item_name]
       | none => some root1) with
    | none => none
    | some root2 =>
      match source with
      | FsNode.dir dcs =>
        match copytreeAt root2 ["for-git", item_name] (FsNode.dir dcs) with
        | some root3 => some (root3, true)
        | none => some (root2, false)
      | FsNode.file c =>
        match copy2At root2 ["for-git", item_name] item_name c with
        | some root3 => some (root3, true)
        | none => some (root2, false)

/-- The tail of one loop iteration of `backup_items` after a successful
generation copy (lines 177-183): `success_count += 1`, then
`update_for_git` and `cleanup_old_backups`, both still inside the per-item
`try`, so an exception escaping either is caught by the item's `except` and
also increments `fail_count`.  Result: state, success increment, fail
increment. -/
def backup_one_tail (item : String) (src : FsNode) (root : FsNode) :
    Option (FsNode × Nat × Nat) :=
  match update_for_git item src root with
  | none => some (root, 1, 1)
  | some (root4, _) =>
    match cleanup_old_backups root4 item with
    | none => some (root4, 1, 1)
    | some root5 => some (root5, 1, 0)

/-- One iteration of the `backup_items` loop (lines 148-190) for the item
named `item`, with the batch timestamp `ts`: `program_folder.mkdir`
(line 154, outside the `try` — an exception here escapes the loop, `none`);
then, inside the `try`, the directory/file/missing source cases, and on
success the mirror update and cleanup. -/
def backup_one (config : List (String × FsNode)) (ts : String) (root : FsNode)
    (item : String) : Option (FsNode × Nat × Nat) :=
  match mkdirAt root [item] with
  | none => none
  | some root1 =>
    match getEntry config item with
    | some (FsNode.dir scs) =>
      match copytreeAt root1 [item, ts, item] (FsNode.dir scs) with
      | none => some (root1, 0, 1)
      | some root2 => backup_one_tail item (FsNode.dir scs) root2
    | some (FsNode.file c) =>
      match mkdirAt root1 [item, ts] with
      | none => some (root1, 0, 1)
      | some root2 =>
        match copy2At root2 [item, ts, item] item c with
        | none => some (root2, 0, 1)
        | some root3 => backup_one_tail item (FsNode.file c) root3
    | none => some (root1, 0, 1)

/-- Python's `items[i]` with its negative-index semantics (`idx - 1` is `-1`
when `idx = 0`, which addresses the last element). -/
def pyIndex (items : List String) (i : Int) : Option String :=
  if 0 ≤ i then items.get? i.toNat
  else if 0 ≤ (items.length : Int) + i then items.get? ((items.length : Int) + i).toNat
  else none

/-- `backup_items(items, selected_indices)` (lines 133-197): process the
selected 1-based indices in order against the source root `config` and the
backup root `root`, one shared timestamp `ts`; aggregate
`(success_count, fail_count)`.  `none` models an exception escaping the
loop (an `IndexError` on `items[idx - 1]`, or `program_folder.mkdir`
raising), which aborts the whole batch. -/
def backup_items (config : List (String × FsNode)) (items : List String)
    (ts : String) (root : FsNode) : List Int → Option (FsNode × Nat × Nat)
  | [] => some (root, 0, 0)
  | idx :: rest =>
    match pyIndex items (idx - 1) with
    | none => none
    | some item =>
      match backup_one config ts root item with
      | none => none
      | some (root1, s, f) =>
        match backup_items config items ts root1 rest with
        | none => none
        | some (root2, s2, f2) => some (root2, s + s2, f + f2)

/-- The program-folder effect of one fully successful backup of one item at
timestamp `ts` followed by its cleanup (lines 164-183, completed without the
per-item `except` firing): the generation child named `ts` is written (a new
directory payload `g`), then `cleanup_old_backups` prunes the subfolders.
The mirror write is disjoint from the program folder (item names other than
`for-git`). -/
def successfulBackup (cs : List (String × FsNode)) (ts : String) (g : FsNode) :
    List (String × FsNode) :=
  cleanup_children (setEntry cs ts g)

/-- A sequence of successful backups of one item: each element is the
timestamp and the generation payload written at it. -/
def backupSequence (cs : List (String × FsNode)) :
    List (String × FsNode) → List (String × FsNode)
  | [] => cs
  | p :: rest => backupSequence (successfulBackup cs p.1 p.2) rest

/-!
## The interactive selection parser (`get_user_selection`, lines 43-81)
-/

/-- Python `str.lower()`. -/
def pyLower (s : String) : String := String.mk (s.data.map Char.toLower)

/-- Python `str.strip()`. -/
def pyStrip (s : String) : String :=
  String.mk (((s.data.dropWhile Char.isWhitespace).reverse.dropWhile
    Char.isWhitespace).reverse)

/-- Split on whitespace runs, dropping empty tokens (Python `str.split()`
with no argument). -/
def splitWsAux : List Char → List Char → List String
  | [], cur => if cur.isEmpty then [] else [String.mk cur.reverse]
  | c :: rest, cur =>
    if c.isWhitespace then
      if cur.isEmpty then splitWsAux rest []
      else String.mk cur.reverse :: splitWsAux rest []
    else splitWsAux rest (c :: cur)

/-- `user_input.replace(',', ' ').split()` (line 66). -/
def pyTokens (s : String) : List String :=
  splitWsAux (s.data.map fun c => if c = ',' then ' ' else c) []

/-- Decimal digits to a number; `none` on a non-digit. -/
def digitsVal : List Char → Nat → Option Nat
  | [], acc => some acc
  | c :: rest, acc =>
    if c.isDigit then digitsVal rest (acc * 10 + (c.toNat - 48)) else none

/-- Python `int(part)` on an already-stripped token: an optional sign then a
non-empty digit string, else `ValueError` (`none`).  (Python's underscore
digit grouping and non-ASCII digits are not modelled.) -/
def pyInt (s : String) : Option Int :=
  match s.data with
  | [] => none
  | '+' :: ds =>
    match ds with
    | [] => none
    | _ => (digitsVal ds 0).map Int.ofNat
  | '-' :: ds =>
    match ds with
    | [] => none
    | _ => (digitsVal ds 0).map fun n => -(n : Int)
  | ds => (digitsVal ds 0).map Int.ofNat

/-- The token loop inside the `try` (lines 65-73): each part goes through
`int(part)`; a `ValueError` aborts the whole attempt (`none`, caught at
line 80); a parsed number is kept iff `1 <= num <= max_num`, an
out-of-range number is only reported and skipped. -/
def parse_tokens (max_num : Nat) : List String → Option (List Int)
  | [] => some []
  | p :: rest =>
    match pyInt p with
    | none => none
    | some num =>
      match parse_tokens max_num rest with
      | none => none
      | some ns =>
        if 1 ≤ num ∧ num ≤ (max_num : Int) then some (num :: ns) else some ns

/-- Result of `get_user_selection`: quit, show history, or a list of chosen
indices. -/
inductive SelResult where
  | quit
  | history
  | chosen (ns : List Int)
deriving DecidableEq, Repr

/-- `list(range(1, max_num + 1))` (line 61). -/
def allIndices (max_num : Nat) : List Int :=
  (List.range max_num).map fun i => Int.ofNat i + 1

/-- `get_user_selection(max_num)` (lines 43-81) over the sequence of lines
the user will type: strip the line; `q`/`h`/`all` (case-insensitive) decide
immediately; otherwise tokenize and parse; a `ValueError` or an empty valid
set re-prompts with the next line.  `none` when the input lines run out
without a decision. -/
def get_user_selection (max_num : Nat) : List String → Option SelResult
  | [] => none
  | line :: rest =>
    let s := pyStrip line
    if pyLower s = "q" then some SelResult.quit
    else if pyLower s = "h" then some SelResult.history
    else if pyLower s = "all" then some (SelResult.chosen (allIndices max_num))
    else
      match parse_tokens max_num (pyTokens s) with
      | none => get_user_selection max_num rest
      | some [] => get_user_selection max_num rest
      | some ns => some (SelResult.chosen ns)


/-!
## Lemmas about directory entries and path operations
-/

theorem getEntry_nil (n : String) : getEntry [] n = none := rfl

theorem getEntry_cons (e : String × FsNode) (rest : List (String × FsNode)) (n : String) :
    getEntry (e :: rest) n = if e.1 = n then some e.2 else getEntry rest n := rfl

theorem setEntry_nil (n : String) (v : FsNode) : setEntry [] n v = [(n, v)] := rfl

theorem setEntry_cons (e : String × FsNode) (rest : List (String × FsNode)) (n : String)
    (v : FsNode) :
    setEntry (e :: rest) n v = if e.1 = n then (n, v) :: rest else e :: setEntry rest n v := rfl

theorem namesOf_nil : namesOf [] = [] := rfl

theorem namesOf_cons (e : String × FsNode) (rest : List (String × FsNode)) :
    namesOf (e :: rest) = e.1 :: namesOf rest := rfl

theorem dirNames_nil : dirNames [] = [] := rfl

theorem dirNames_cons_file (n c : String) (rest : List (String × FsNode)) :
    dirNames ((n, FsNode.file c) :: rest) = dirNames rest := by
  simp [dirNames, List.filterMap_cons]

theorem dirNames_cons_dir (n : String) (d : List (String × FsNode))
    (rest : List (String × FsNode)) :
    dirNames ((n, FsNode.dir d) :: rest) = n :: dirNames rest := by
  simp [dirNames, List.filterMap_cons]

theorem getEntry_setEntry_self (cs : List (String × FsNode)) (n : String) (v : FsNode) :
    getEntry (setEntry cs n v) n = some v := by
  induction cs with
  | nil => simp [setEntry_nil, getEntry_cons]
  | cons e rest ih =>
    rw [setEntry_cons]
    by_cases h : e.1 = n
    · simp [h, getEntry_cons]
    · simp [h, getEntry_cons, ih]

theorem getEntry_setEntry_ne {m n : String} (cs : List (String × FsNode)) (v : FsNode)
    (h : m ≠ n) : getEntry (setEntry cs n v) m = getEntry cs m := by
  have hnm : ¬ (n = m) := fun he => h he.symm
  induction cs with
  | nil => simp [setEntry_nil, getEntry_cons, getEntry_nil, hnm]
  | cons e rest ih =>
    rw [setEntry_cons]
    by_cases he : e.1 = n
    · rw [if_pos he, getEntry_cons, getEntry_cons, he]
      simp [hnm]
    · rw [if_neg he, getEntry_cons, getEntry_cons, ih]

theorem setEntry_setEntry (cs : List (String × FsNode)) (n : String) (v w : FsNode) :
    setEntry (setEntry cs n v) n w = setEntry cs n w := by
  induction cs with
  | nil => simp [setEntry_nil, setEntry_cons]
  | cons e rest ih =>
    rw [setEntry_cons]
    by_cases h : e.1 = n
    · simp [h, setEntry_cons]
    · simp [h, setEntry_cons, ih]

theorem setEntry_self_of_getEntry {cs : List (String × FsNode)} {n : String} {v : FsNode}
    (h : getEntry cs n = some v) : setEntry cs n v = cs := by
  induction cs with
  | nil => simp [getEntry_nil] at h
  | cons e rest ih =>
    obtain ⟨en, ev⟩ := e
    rw [getEntry_cons] at h
    rw [setEntry_cons]
    by_cases he : en = n
    · have hc : (en, ev).1 = n := he
      rw [if_pos hc] at h
      rw [if_pos hc]
      injection h with h2
      have h3 : ev = v := h2
      rw [he, h3]
    · have hc : ¬ ((en, ev).1 = n) := he
      rw [if_neg hc] at h
      rw [if_neg hc, ih h]

theorem getEntry_none_iff {cs : List (String × FsNode)} {n : String} :
    getEntry cs n = none ↔ ∀ e ∈ cs, e.1 ≠ n := by
  induction cs with
  | nil => simp [getEntry_nil]
  | cons e rest ih =>
    rw [getEntry_cons]
    by_cases he : e.1 = n
    · simp [he]
    · simp [he, ih]

theorem setEntry_append_of_none {cs : List (String × FsNode)} {n : String} (v : FsNode)
    (h : getEntry cs n = none) : setEntry cs n v = cs ++ [(n, v)] := by
  induction cs with
  | nil => simp [setEntry_nil]
  | cons e rest ih =>
    rw [getEntry_cons] at h
    by_cases he : e.1 = n
    · simp [he] at h
    · rw [if_neg he] at h
      rw [setEntry_cons, if_neg he, ih h]
      simp

theorem getEntry_filter_name (q : String → Bool) (cs : List (String × FsNode)) (n : String) :
    getEntry (cs.filter fun e => q e.1) n = if q n then getEntry cs n else none := by
  induction cs with
  | nil => simp [getEntry_nil]
  | cons e rest ih =>
    rw [List.filter_cons]
    by_cases hq : q e.1
    · rw [if_pos (by simp [hq]), getEntry_cons, getEntry_cons]
      by_cases he : e.1 = n
      · rw [if_pos he, if_pos he, if_pos (he ▸ hq)]
      · rw [if_neg he, if_neg he, ih]
    · rw [if_neg (by simp [hq]), getEntry_cons, ih]
      by_cases he : e.1 = n
      · rw [if_pos he, if_neg (he ▸ hq), if_neg (he ▸ hq)]
      · rw [if_neg he]

theorem getEntry_delEntry_self (cs : List (String × FsNode)) (n : String) :
    getEntry (delEntry cs n) n = none := by
  have h := getEntry_filter_name (fun s => ! decide (s = n)) cs n
  rw [delEntry]
  simp at h ⊢
  exact h

theorem namesOf_setEntry_of_some {cs : List (String × FsNode)} {n : String} {v0 : FsNode}
    (h : getEntry cs n = some v0) (v : FsNode) :
    namesOf (setEntry cs n v) = namesOf cs := by
  induction cs with
  | nil => simp [getEntry_nil] at h
  | cons e rest ih =>
    rw [getEntry_cons] at h
    rw [setEntry_cons]
    by_cases he : e.1 = n
    · rw [if_pos he, namesOf_cons, namesOf_cons, he]
    · rw [if_neg he] at h
      rw [if_neg he, namesOf_cons, namesOf_cons, ih h]

theorem namesOf_setEntry_of_none {cs : List (String × FsNode)} {n : String}
    (h : getEntry cs n = none) (v : FsNode) :
    namesOf (setEntry cs n v) = namesOf cs ++ [n] := by
  rw [setEntry_append_of_none v h]
  simp [namesOf]

theorem dirNames_sublist_namesOf (cs : List (String × FsNode)) :
    (dirNames cs).Sublist (namesOf cs) := by
  induction cs with
  | nil => simp [dirNames_nil, namesOf_nil]
  | cons e rest ih =>
    cases e with
    | mk en ev =>
      cases ev with
      | file c =>
        rw [dirNames_cons_file, namesOf_cons]
        exact ih.cons en
      | dir d =>
        rw [dirNames_cons_dir, namesOf_cons]
        exact ih.cons₂ en

theorem dirNames_nodup {cs : List (String × FsNode)} (h : (namesOf cs).Nodup) :
    (dirNames cs).Nodup :=
  h.sublist (dirNames_sublist_namesOf cs)

theorem mem_namesOf_of_mem_dirNames {cs : List (String × FsNode)} {x : String}
    (h : x ∈ dirNames cs) : x ∈ namesOf cs :=
  (dirNames_sublist_namesOf cs).mem h

theorem dirNames_filter_name (q : String → Bool) (cs : List (String × FsNode)) :
    dirNames (cs.filter fun e => q e.1) = (dirNames cs).filter q := by
  induction cs with
  | nil => simp [dirNames_nil]
  | cons e rest ih =>
    cases e with
    | mk en ev =>
      rw [List.filter_cons]
      cases ev with
      | file c =>
        by_cases hq : q en
        · rw [if_pos (by simpa using hq), dirNames_cons_file, dirNames_cons_file, ih]
        · rw [if_neg (by simpa using hq), dirNames_cons_file, ih]
      | dir d =>
        by_cases hq : q en
        · rw [if_pos (by simpa using hq), dirNames_cons_dir, dirNames_cons_dir,
            List.filter_cons, if_pos (by simpa using hq), ih]
        · rw [if_neg (by simpa using hq), dirNames_cons_dir, List.filter_cons,
            if_neg (by simpa using hq), ih]

theorem dirNames_setEntry_of_none {cs : List (String × FsNode)} {n : String}
    (h : getEntry cs n = none) (dcs : List (String × FsNode)) :
    dirNames (setEntry cs n (FsNode.dir dcs)) = dirNames cs ++ [n] := by
  rw [setEntry_append_of_none _ h]
  simp [dirNames, List.filterMap_append]

theorem mem_dirNames_setEntry_dir {cs : List (String × FsNode)} {n x : String}
    (dcs : List (String × FsNode)) :
    x ∈ dirNames (setEntry cs n (FsNode.dir dcs)) ↔ x = n ∨ x ∈ dirNames cs := by
  induction cs with
  | nil =>
    rw [setEntry_nil, dirNames_cons_dir]
    simp [dirNames_nil]
  | cons e rest ih =>
    obtain ⟨en, ev⟩ := e
    rw [setEntry_cons]
    by_cases he : en = n
    · subst he
      rw [if_pos rfl, dirNames_cons_dir]
      cases ev with
      | file c => rw [dirNames_cons_file, List.mem_cons]
      | dir d =>
        rw [dirNames_cons_dir, List.mem_cons]
        tauto
    · rw [if_neg he]
      cases ev with
      | file c =>
        rw [dirNames_cons_file, dirNames_cons_file]
        exact ih
      | dir d =>
        rw [dirNames_cons_dir, dirNames_cons_dir, List.mem_cons, List.mem_cons, ih]
        tauto

theorem get_nil (node : FsNode) : node.get [] = some node := by
  cases node <;> rfl

theorem get_cons_some {cs : List (String × FsNode)} {n : String} {c : FsNode}
    (h : getEntry cs n = some c) (rest : List String) :
    (FsNode.dir cs).get (n :: rest) = c.get rest := by
  simp [FsNode.get, h]

theorem get_cons_none {cs : List (String × FsNode)} {n : String}
    (h : getEntry cs n = none) (rest : List String) :
    (FsNode.dir cs).get (n :: rest) = none := by
  simp [FsNode.get, h]

theorem get_dir_setEntry_ne {m n : String} (cs : List (String × FsNode)) (v : FsNode)
    (h : m ≠ n) (rest : List String) :
    (FsNode.dir (setEntry cs n v)).get (m :: rest) = (FsNode.dir cs).get (m :: rest) := by
  cases hg : getEntry cs m with
  | none => rw [get_cons_none hg, get_cons_none (by rw [getEntry_setEntry_ne cs v h, hg])]
  | some c => rw [get_cons_some hg, get_cons_some (by rw [getEntry_setEntry_ne cs v h, hg])]

theorem mkdirAt_single_none {cs : List (String × FsNode)} {a : String}
    (hg : getEntry cs a = none) :
    mkdirAt (FsNode.dir cs) [a] = some (FsNode.dir (setEntry cs a (FsNode.dir []))) := by
  simp [mkdirAt, hg]

theorem mkdirAt_single_dir {cs acs : List (String × FsNode)} {a : String}
    (hg : getEntry cs a = some (FsNode.dir acs)) :
    mkdirAt (FsNode.dir cs) [a] = some (FsNode.dir cs) := by
  simp [mkdirAt, hg]

theorem mkdirAt_single_file {cs : List (String × FsNode)} {a c : String}
    (hg : getEntry cs a = some (FsNode.file c)) :
    mkdirAt (FsNode.dir cs) [a] = none := by
  simp [mkdirAt, hg]

theorem mkdirAt_cons2 {cs : List (String × FsNode)} {a : String} {c : FsNode}
    (hg : getEntry cs a = some c) (b : String) (rest : List String) :
    mkdirAt (FsNode.dir cs) (a :: b :: rest) =
      (mkdirAt c (b :: rest)).map fun cn => FsNode.dir (setEntry cs a cn) := by
  simp [mkdirAt, hg]

theorem mkdirAt_cons2_none {cs : List (String × FsNode)} {a : String}
    (hg : getEntry cs a = none) (b : String) (rest : List String) :
    mkdirAt (FsNode.dir cs) (a :: b :: rest) = none := by
  simp [mkdirAt, hg]

theorem copytreeAt_single_none {cs : List (String × FsNode)} {a : String}
    (hg : getEntry cs a = none) (src : FsNode) :
    copytreeAt (FsNode.dir cs) [a] src = some (FsNode.dir (setEntry cs a src)) := by
  simp [copytreeAt, hg]

theorem copytreeAt_single_some {cs : List (String × FsNode)} {a : String} {c : FsNode}
    (hg : getEntry cs a = some c) (src : FsNode) :
    copytreeAt (FsNode.dir cs) [a] src = none := by
  simp [copytreeAt, hg]

theorem copytreeAt_cons2_some {cs : List (String × FsNode)} {a : String} {c : FsNode}
    (hg : getEntry cs a = some c) (b : String) (rest : List String) (src : FsNode) :
    copytreeAt (FsNode.dir cs) (a :: b :: rest) src =
      (copytreeAt c (b :: rest) src).map fun cn => FsNode.dir (setEntry cs a cn) := by
  simp [copytreeAt, hg]

theorem copytreeAt_cons2_none {cs : List (String × FsNode)} {a : String}
    (hg : getEntry cs a = none) (b : String) (rest : List String) (src : FsNode) :
    copytreeAt (FsNode.dir cs) (a :: b :: rest) src =
      (copytreeAt (FsNode.dir []) (b :: rest) src).map fun cn =>
        FsNode.dir (setEntry cs a cn) := by
  simp [copytreeAt, hg]

theorem writeFile_single_none {cs : List (String × FsNode)} {a : String}
    (hg : getEntry cs a = none) (v : String) :
    writeFile (FsNode.dir cs) [a] v = some (FsNode.dir (setEntry cs a (FsNode.file v))) := by
  simp [writeFile, hg]

theorem writeFile_single_file {cs : List (String × FsNode)} {a c0 : String}
    (hg : getEntry cs a = some (FsNode.file c0)) (v : String) :
    writeFile (FsNode.dir cs) [a] v = some (FsNode.dir (setEntry cs a (FsNode.file v))) := by
  simp [writeFile, hg]

theorem writeFile_single_dir {cs dcs : List (String × FsNode)} {a : String}
    (hg : getEntry cs a = some (FsNode.dir dcs)) (v : String) :
    writeFile (FsNode.dir cs) [a] v = none := by
  simp [writeFile, hg]

theorem writeFile_cons2_some {cs : List (String × FsNode)} {a : String} {c : FsNode}
    (hg : getEntry cs a = some c) (b : String) (rest : List String) (v : String) :
    writeFile (FsNode.dir cs) (a :: b :: rest) v =
      (writeFile c (b :: rest) v).map fun cn => FsNode.dir (setEntry cs a cn) := by
  simp [writeFile, hg]

theorem writeFile_cons2_none {cs : List (String × FsNode)} {a : String}
    (hg : getEntry cs a = none) (b : String) (rest : List String) (v : String) :
    writeFile (FsNode.dir cs) (a :: b :: rest) v = none := by
  simp [writeFile, hg]

theorem removeAt_single_some {cs : List (String × FsNode)} {a : String} {c : FsNode}
    (hg : getEntry cs a = some c) :
    removeAt (FsNode.dir cs) [a] = some (FsNode.dir (delEntry cs a)) := by
  simp [removeAt, hg]

theorem removeAt_cons2_some {cs : List (String × FsNode)} {a : String} {c : FsNode}
    (hg : getEntry cs a = some c) (b : String) (rest : List String) :
    removeAt (FsNode.dir cs) (a :: b :: rest) =
      (removeAt c (b :: rest)).map fun cn => FsNode.dir (setEntry cs a cn) := by
  simp [removeAt, hg]

theorem copytreeAt_get {p : List String} :
    ∀ {root src r : FsNode}, copytreeAt root p src = some r → r.get p = some src := by
  induction p with
  | nil => intro root src r h; simp [copytreeAt] at h
  | cons n rest ih =>
    intro root src r h
    cases root with
    | file c => simp [copytreeAt] at h
    | dir cs =>
      cases rest with
      | nil =>
        cases hg : getEntry cs n with
        | some c => rw [copytreeAt_single_some hg] at h; cases h
        | none =>
          rw [copytreeAt_single_none hg] at h
          injection h with h2
          rw [← h2, get_cons_some (getEntry_setEntry_self cs n src)]
          exact get_nil src
      | cons m rest2 =>
        cases hg : getEntry cs n with
        | some c =>
          rw [copytreeAt_cons2_some hg] at h
          cases hc : copytreeAt c (m :: rest2) src with
          | none => rw [hc] at h; cases h
          | some cn =>
            rw [hc] at h
            injection h with h2
            rw [← h2, get_cons_some (getEntry_setEntry_self cs n cn)]
            exact ih hc
        | none =>
          rw [copytreeAt_cons2_none hg] at h
          cases hc : copytreeAt (FsNode.dir []) (m :: rest2) src with
          | none => rw [hc] at h; cases h
          | some cn =>
            rw [hc] at h
            injection h with h2
            rw [← h2, get_cons_some (getEntry_setEntry_self cs n cn)]
            exact ih hc

theorem writeFile_get {p : List String} :
    ∀ {root r : FsNode} {v : String}, writeFile root p v = some r →
      r.get p = some (FsNode.file v) := by
  induction p with
  | nil => intro root r v h; simp [writeFile] at h
  | cons n rest ih =>
    intro root r v h
    cases root with
    | file c => simp [writeFile] at h
    | dir cs =>
      cases rest with
      | nil =>
        cases hg : getEntry cs n with
        | some c =>
          cases c with
          | dir dcs => rw [writeFile_single_dir hg] at h; cases h
          | file c0 =>
            rw [writeFile_single_file hg] at h
            injection h with h2
            rw [← h2, get_cons_some (getEntry_setEntry_self cs n (FsNode.file v))]
            exact get_nil (FsNode.file v)
        | none =>
          rw [writeFile_single_none hg] at h
          injection h with h2
          rw [← h2, get_cons_some (getEntry_setEntry_self cs n (FsNode.file v))]
          exact get_nil (FsNode.file v)
      | cons m rest2 =>
        cases hg : getEntry cs n with
        | some c =>
          rw [writeFile_cons2_some hg] at h
          cases hc : writeFile c (m :: rest2) v with
          | none => rw [hc] at h; cases h
          | some cn =>
            rw [hc] at h
            injection h with h2
            rw [← h2, get_cons_some (getEntry_setEntry_self cs n cn)]
            exact ih hc
        | none => rw [writeFile_cons2_none hg] at h; cases h

theorem removeAt_get {p : List String} :
    ∀ {root r : FsNode}, removeAt root p = some r → r.get p = none := by
  induction p with
  | nil => intro root r h; simp [removeAt] at h
  | cons n rest ih =>
    intro root r h
    cases root with
    | file c => simp [removeAt] at h
    | dir cs =>
      cases rest with
      | nil =>
        cases hg : getEntry cs n with
        | some c =>
          rw [removeAt_single_some hg] at h
          injection h with h2
          rw [← h2, get_cons_none (getEntry_delEntry_self cs n)]
        | none => simp [removeAt, hg] at h
      | cons m rest2 =>
        cases hg : getEntry cs n with
        | some c =>
          rw [removeAt_cons2_some hg] at h
          cases hc : removeAt c (m :: rest2) with
          | none => rw [hc] at h; cases h
          | some cn =>
            rw [hc] at h
            injection h with h2
            rw [← h2, get_cons_some (getEntry_setEntry_self cs n cn)]
            exact ih hc
        | none => simp [removeAt, hg] at h

theorem copytreeAt_none_of_get {p : List String} :
    ∀ {root x : FsNode} (src : FsNode), root.get p = some x →
      copytreeAt root p src = none := by
  induction p with
  | nil => intro root x src h; simp [copytreeAt]
  | cons n rest ih =>
    intro root x src h
    cases root with
    | file c => simp [copytreeAt]
    | dir cs =>
      cases hg : getEntry cs n with
      | none => rw [get_cons_none hg] at h; cases h
      | some c =>
        rw [get_cons_some hg] at h
        cases rest with
        | nil => rw [copytreeAt_single_some hg]
        | cons m rest2 =>
          rw [copytreeAt_cons2_some hg, ih src h]
          rfl


/-!
## Lemmas about sorting, retention selection and cleanup
-/

/-- Strictly descending in Python's string order (newest first, no ties). -/
def StrictDesc (l : List String) : Prop := List.Pairwise (fun a b => pyLt b a) l

instance (l : List String) : Decidable (StrictDesc l) := by
  unfold StrictDesc
  infer_instance

theorem strictDesc_of_sorted_nodup {l : List String} (hs : List.Sorted geStr l)
    (hn : l.Nodup) : StrictDesc l :=
  (List.Pairwise.and hs hn).imp fun h => pyLt_of_geStr_ne h.1 fun he => h.2 he.symm

theorem pyLt_asymm_ge {a b : String} (h1 : pyLt a b) (h2 : geStr a b) : False := by
  rcases pyLt_iff_le_ne.mp h1 with ⟨hle, hne⟩
  apply hne
  have : a.data = b.data := strLeB_antisymm hle h2
  cases a; cases b; simp_all

theorem filter_not_mem_drop {L : List String} (k : Nat) (h : L.Nodup) :
    (L.filter fun x => ! decide (x ∈ L.drop k)) = L.take k := by
  have hdisj : (L.take k).Disjoint (L.drop k) := by
    have h2 := h
    rw [← List.take_append_drop k L] at h2
    exact (List.nodup_append.mp h2).2.2
  set p : String → Bool := fun x => ! decide (x ∈ L.drop k) with hp
  have hsplit : L.filter p = (L.take k ++ L.drop k).filter p := by
    rw [List.take_append_drop]
  rw [hsplit, List.filter_append]
  have h1 : (L.take k).filter p = L.take k := by
    apply List.filter_eq_self.mpr
    intro a ha
    have : a ∉ L.drop k := fun hc => hdisj ha hc
    simp [hp, this]
  have h2 : (L.drop k).filter p = [] := by
    apply List.filter_eq_nil_iff.mpr
    intro a ha
    simp [hp, ha]
  rw [h1, h2, List.append_nil]

theorem dirNames_cleanup_children (cs : List (String × FsNode)) :
    dirNames (cleanup_children cs) =
      (dirNames cs).filter fun x =>
        ! decide (x ∈ selectEvictions (sortDesc (dirNames cs)) MAX_BACKUPS) := by
  have h := dirNames_filter_name
    (fun x => ! decide (x ∈ selectEvictions (sortDesc (dirNames cs)) MAX_BACKUPS)) cs
  simpa [cleanup_children] using h

theorem listGenerations_cleanup {cs : List (String × FsNode)}
    (h : (dirNames cs).Nodup) :
    listGenerations (cleanup_children cs) =
      (sortDesc (dirNames cs)).take MAX_BACKUPS := by
  by_cases hlen : (sortDesc (dirNames cs)).length > MAX_BACKUPS
  · have hTD : dirNames (cleanup_children cs) =
        (dirNames cs).filter fun x =>
          ! decide (x ∈ (sortDesc (dirNames cs)).drop MAX_BACKUPS) := by
      rw [dirNames_cleanup_children]
      simp only [selectEvictions, if_pos hlen]
    have hLn : (sortDesc (dirNames cs)).Nodup := sortDesc_nodup h
    have hperm : List.Perm (dirNames (cleanup_children cs))
        ((sortDesc (dirNames cs)).take MAX_BACKUPS) := by
      rw [hTD, ← filter_not_mem_drop MAX_BACKUPS hLn]
      exact List.Perm.filter _ (sortDesc_perm (dirNames cs)).symm
    apply List.eq_of_perm_of_sorted
      ((sortDesc_perm (dirNames (cleanup_children cs))).trans hperm)
      (sortDesc_sorted _)
    exact List.Pairwise.sublist (List.take_sublist _ _) (sortDesc_sorted (dirNames cs))
  · have hTD : dirNames (cleanup_children cs) = dirNames cs := by
      rw [dirNames_cleanup_children]
      simp only [selectEvictions, if_neg hlen]
      apply List.filter_eq_self.mpr
      intro a ha
      simp
    rw [listGenerations, hTD, List.take_of_length_le (Nat.le_of_not_lt hlen)]

theorem take_facts {L : List String} (hs : List.Sorted geStr L) (hn : L.Nodup)
    {k : Nat} {x : String} (hx : x ∈ L.drop k) :
    (L.take k).length = k ∧ ∀ y ∈ L.take k, pyLt x y := by
  constructor
  · have hlt : k < L.length := by
      by_contra hc
      rw [List.drop_eq_nil_of_le (Nat.le_of_not_lt hc)] at hx
      simp at hx
    rw [List.length_take]
    omega
  · intro y hy
    have hp := hs
    rw [← List.take_append_drop k L] at hp
    have hrel := (List.pairwise_append.mp hp).2.2 y hy x hx
    have hdisj : (L.take k).Disjoint (L.drop k) := by
      have h2 := hn
      rw [← List.take_append_drop k L] at h2
      exact (List.nodup_append.mp h2).2.2
    exact pyLt_of_geStr_ne hrel fun he => hdisj (he ▸ hy) hx

theorem not_mem_drop_of_max {L : List String} (hs : List.Sorted geStr L)
    (hn : L.Nodup) {t : String} (hmax : ∀ y ∈ L, y ≠ t → pyLt y t) {k : Nat}
    (hk : 1 ≤ k) : t ∉ L.drop k := by
  intro hmem
  cases L with
  | nil => simp at hmem
  | cons h0 tail =>
    cases k with
    | zero => omega
    | succ k2 =>
      rw [List.drop_succ_cons] at hmem
      have htail : t ∈ tail := List.drop_subset k2 tail hmem
      have hne : h0 ≠ t := by
        intro he
        exact (List.nodup_cons.mp hn).1 (he ▸ htail)
      exact pyLt_asymm_ge (hmax h0 (List.mem_cons_self h0 tail) hne)
        (List.rel_of_sorted_cons hs t htail)

theorem namesOf_setEntry_nodup {cs : List (String × FsNode)} {n : String}
    (h : (namesOf cs).Nodup) (v : FsNode) : (namesOf (setEntry cs n v)).Nodup := by
  cases hg : getEntry cs n with
  | some w => rw [namesOf_setEntry_of_some hg]; exact h
  | none =>
    rw [namesOf_setEntry_of_none hg]
    have hnm : n ∉ namesOf cs := by
      intro hmem
      rcases List.mem_map.mp hmem with ⟨e, he, hee⟩
      exact getEntry_none_iff.mp hg e he hee
    simp [List.nodup_append, h, hnm]

theorem namesOf_filter_nodup {cs : List (String × FsNode)} (q : String × FsNode → Bool)
    (h : (namesOf cs).Nodup) : (namesOf (cs.filter q)).Nodup :=
  h.sublist (List.Sublist.map Prod.fst (List.filter_sublist cs))

theorem mem_dirNames_of_getEntry_dir {cs : List (String × FsNode)} {t : String}
    {d0 : List (String × FsNode)} (h : getEntry cs t = some (FsNode.dir d0)) :
    t ∈ dirNames cs := by
  induction cs with
  | nil => simp [getEntry_nil] at h
  | cons e rest ih =>
    obtain ⟨en, ev⟩ := e
    rw [getEntry_cons] at h
    by_cases he : en = t
    · have hc : (en, ev).1 = t := he
      rw [if_pos hc] at h
      injection h with h2
      have h3 : ev = FsNode.dir d0 := h2
      rw [h3, dirNames_cons_dir]
      exact he ▸ List.mem_cons_self en _
    · have hc : ¬ ((en, ev).1 = t) := he
      rw [if_neg hc] at h
      cases ev with
      | file c => rw [dirNames_cons_file]; exact ih h
      | dir d => rw [dirNames_cons_dir]; exact List.mem_cons_of_mem en (ih h)

theorem getEntry_dir_of_mem_dirNames {cs : List (String × FsNode)} {t : String}
    (hn : (namesOf cs).Nodup) (h : t ∈ dirNames cs) :
    ∃ d0, getEntry cs t = some (FsNode.dir d0) := by
  induction cs with
  | nil => simp [dirNames_nil] at h
  | cons e rest ih =>
    obtain ⟨en, ev⟩ := e
    rw [namesOf_cons] at hn
    have hn2 := List.nodup_cons.mp hn
    by_cases he : en = t
    · cases ev with
      | file c =>
        rw [dirNames_cons_file] at h
        exact absurd (he ▸ mem_namesOf_of_mem_dirNames h) hn2.1
      | dir d =>
        refine ⟨d, ?_⟩
        rw [getEntry_cons, if_pos (show (en, FsNode.dir d).1 = t from he)]
    · have hrest : t ∈ dirNames rest := by
        cases ev with
        | file c => rw [dirNames_cons_file] at h; exact h
        | dir d =>
          rw [dirNames_cons_dir] at h
          rcases List.mem_cons.mp h with h2 | h2
          · exact absurd h2.symm he
          · exact h2
      obtain ⟨d0, hd0⟩ := ih hn2.2 hrest
      refine ⟨d0, ?_⟩
      rw [getEntry_cons, if_neg (show ¬ ((en, ev).1 = t) from he), hd0]

theorem dirNames_setEntry_dir_of_dir {cs : List (String × FsNode)} {t : String}
    {d0 : List (String × FsNode)} (h : getEntry cs t = some (FsNode.dir d0))
    (dcs : List (String × FsNode)) :
    dirNames (setEntry cs t (FsNode.dir dcs)) = dirNames cs := by
  induction cs with
  | nil => simp [getEntry_nil] at h
  | cons e rest ih =>
    obtain ⟨en, ev⟩ := e
    rw [getEntry_cons] at h
    rw [setEntry_cons]
    by_cases he : en = t
    · have hc : (en, ev).1 = t := he
      rw [if_pos hc] at h ⊢
      injection h with h2
      have h3 : ev = FsNode.dir d0 := h2
      rw [h3, dirNames_cons_dir, dirNames_cons_dir, he]
    · have hc : ¬ ((en, ev).1 = t) := he
      rw [if_neg hc] at h ⊢
      cases ev with
      | file c => rw [dirNames_cons_file, dirNames_cons_file, ih h]
      | dir d => rw [dirNames_cons_dir, dirNames_cons_dir, ih h]

theorem dirNames_setEntry_perm {cs : List (String × FsNode)} {t : String}
    (h : t ∉ dirNames cs) (dcs : List (String × FsNode)) :
    List.Perm (dirNames (setEntry cs t (FsNode.dir dcs))) (t :: dirNames cs) := by
  induction cs with
  | nil =>
    rw [setEntry_nil, dirNames_cons_dir, dirNames_nil]
  | cons e rest ih =>
    obtain ⟨en, ev⟩ := e
    rw [setEntry_cons]
    by_cases he : en = t
    · rw [if_pos (show (en, ev).1 = t from he), dirNames_cons_dir]
      cases ev with
      | file c => rw [dirNames_cons_file]
      | dir d =>
        exfalso
        apply h
        rw [dirNames_cons_dir]
        exact he ▸ List.mem_cons_self en _
    · rw [if_neg (show ¬ ((en, ev).1 = t) from he)]
      cases ev with
      | file c =>
        rw [dirNames_cons_file, dirNames_cons_file]
        exact ih (by rw [dirNames_cons_file] at h; exact h)
      | dir d =>
        rw [dirNames_cons_dir, dirNames_cons_dir]
        have hrest : t ∉ dirNames rest := by
          rw [dirNames_cons_dir] at h
          exact fun hc => h (List.mem_cons_of_mem en hc)
        exact ((ih hrest).cons en).trans (List.Perm.swap t en (dirNames rest))

/-- A timestamp `x` was evicted only because the retention set was full and
everything kept is newer. -/
def EvictedBelow (cs : List (String × FsNode)) (x : String) : Prop :=
  (dirNames cs).length = MAX_BACKUPS ∧ ∀ y ∈ dirNames cs, pyLt x y

theorem inv_step {cs : List (String × FsNode)} (t : String)
    (dcs : List (String × FsNode)) (hn : (namesOf cs).Nodup) (P : String → Prop)
    (h3 : ∀ x, P x → x ∉ dirNames cs → EvictedBelow cs x) :
    (namesOf (successfulBackup cs t (FsNode.dir dcs))).Nodup ∧
    (dirNames (successfulBackup cs t (FsNode.dir dcs))).length ≤ MAX_BACKUPS ∧
    ∀ x, (x = t ∨ P x) → x ∉ dirNames (successfulBackup cs t (FsNode.dir dcs)) →
      EvictedBelow (successfulBackup cs t (FsNode.dir dcs)) x := by
  have hnn : (namesOf (setEntry cs t (FsNode.dir dcs))).Nodup :=
    namesOf_setEntry_nodup hn (FsNode.dir dcs)
  have hnD : (dirNames (setEntry cs t (FsNode.dir dcs))).Nodup := dirNames_nodup hnn
  have hLs : List.Sorted geStr (sortDesc (dirNames (setEntry cs t (FsNode.dir dcs)))) :=
    sortDesc_sorted _
  have hLn : (sortDesc (dirNames (setEntry cs t (FsNode.dir dcs)))).Nodup :=
    sortDesc_nodup hnD
  have hKL : sortDesc (dirNames (successfulBackup cs t (FsNode.dir dcs))) =
      (sortDesc (dirNames (setEntry cs t (FsNode.dir dcs)))).take MAX_BACKUPS :=
    listGenerations_cleanup hnD
  have hKmem : ∀ x, x ∈ dirNames (successfulBackup cs t (FsNode.dir dcs)) ↔
      x ∈ (sortDesc (dirNames (setEntry cs t (FsNode.dir dcs)))).take MAX_BACKUPS := by
    intro x
    rw [← hKL]
    exact mem_sortDesc.symm
  have hKlen : (dirNames (successfulBackup cs t (FsNode.dir dcs))).length =
      ((sortDesc (dirNames (setEntry cs t (FsNode.dir dcs)))).take MAX_BACKUPS).length := by
    rw [← hKL]
    exact (sortDesc_perm _).length_eq.symm
  refine ⟨namesOf_filter_nodup _ hnn, ?_, ?_⟩
  · rw [hKlen, List.length_take]
    exact Nat.min_le_left _ _
  · intro x hx hxK
    by_cases hxD : x ∈ dirNames (setEntry cs t (FsNode.dir dcs))
    · have hxL : x ∈ sortDesc (dirNames (setEntry cs t (FsNode.dir dcs))) :=
        mem_sortDesc.mpr hxD
      have hxdrop : x ∈ (sortDesc (dirNames (setEntry cs t (FsNode.dir dcs)))).drop
          MAX_BACKUPS := by
        have hsplit : x ∈ (sortDesc (dirNames (setEntry cs t (FsNode.dir dcs)))).take
            MAX_BACKUPS ∨ x ∈ (sortDesc (dirNames (setEntry cs t
            (FsNode.dir dcs)))).drop MAX_BACKUPS := by
          rw [← List.mem_append, List.take_append_drop]
          exact hxL
        rcases hsplit with h | h
        · exact absurd ((hKmem x).mpr h) hxK
        · exact h
      obtain ⟨hlen5, hbelow⟩ := take_facts hLs hLn hxdrop
      exact ⟨by rw [hKlen, hlen5], fun y hy => hbelow y ((hKmem y).mp hy)⟩
    · have hmemiff := fun z =>
        @mem_dirNames_setEntry_dir cs t z dcs
      have hxt : ¬ (x = t ∨ x ∈ dirNames cs) := fun hc => hxD ((hmemiff x).mpr hc)
      push_neg at hxt
      have hxP : P x := by
        rcases hx with h | h
        · exact absurd h hxt.1
        · exact h
      obtain ⟨hlen, hall⟩ := h3 x hxP hxt.2
      by_cases htdirs : t ∈ dirNames cs
      · obtain ⟨d0, hd0⟩ := getEntry_dir_of_mem_dirNames hn htdirs
        have hDeq : dirNames (setEntry cs t (FsNode.dir dcs)) = dirNames cs :=
          dirNames_setEntry_dir_of_dir hd0 dcs
        have hLlen : (sortDesc (dirNames (setEntry cs t (FsNode.dir dcs)))).length =
            MAX_BACKUPS := by
          rw [(sortDesc_perm _).length_eq, hDeq, hlen]
        have htake : (sortDesc (dirNames (setEntry cs t (FsNode.dir dcs)))).take
            MAX_BACKUPS = sortDesc (dirNames (setEntry cs t (FsNode.dir dcs))) :=
          List.take_of_length_le (le_of_eq hLlen)
        refine ⟨by rw [hKlen, htake, hLlen], ?_⟩
        intro y hy
        have hyL : y ∈ sortDesc (dirNames (setEntry cs t (FsNode.dir dcs))) := by
          rw [← htake]
          exact (hKmem y).mp hy
        have hydirs : y ∈ dirNames cs := by
          rw [← hDeq]
          exact mem_sortDesc.mp hyL
        exact hall y hydirs
      · have hperm : List.Perm (dirNames (setEntry cs t (FsNode.dir dcs)))
            (t :: dirNames cs) := dirNames_setEntry_perm htdirs dcs
        have hLlen : (sortDesc (dirNames (setEntry cs t (FsNode.dir dcs)))).length =
            MAX_BACKUPS + 1 := by
          rw [(sortDesc_perm _).length_eq, hperm.length_eq, List.length_cons, hlen]
        have hdlen : ((sortDesc (dirNames (setEntry cs t (FsNode.dir dcs)))).drop
            MAX_BACKUPS).length = 1 := by
          rw [List.length_drop, hLlen]
          omega
        obtain ⟨z, hz⟩ := List.length_eq_one.mp hdlen
        have hzdrop : z ∈ (sortDesc (dirNames (setEntry cs t (FsNode.dir dcs)))).drop
            MAX_BACKUPS := by
          rw [hz]
          exact List.mem_singleton_self z
        obtain ⟨hlen5, hbelow⟩ := take_facts hLs hLn hzdrop
        have hzD : z ∈ dirNames (setEntry cs t (FsNode.dir dcs)) :=
          mem_sortDesc.mp (List.drop_subset _ _ hzdrop)
        refine ⟨by rw [hKlen, hlen5], ?_⟩
        intro y hy
        have hytake : y ∈ (sortDesc (dirNames (setEntry cs t (FsNode.dir dcs)))).take
            MAX_BACKUPS := (hKmem y).mp hy
        have hyD : y ∈ dirNames (setEntry cs t (FsNode.dir dcs)) :=
          mem_sortDesc.mp (List.take_subset _ _ hytake)
        rcases List.mem_cons.mp (hperm.mem_iff.mp hyD) with hyt | hydirs
        · subst hyt
          have hzney : z ≠ y := by
            intro he
            have hdisj : ((sortDesc (dirNames (setEntry cs y (FsNode.dir dcs)))).take
                MAX_BACKUPS).Disjoint ((sortDesc (dirNames (setEntry cs y
                (FsNode.dir dcs)))).drop MAX_BACKUPS) := by
              have h2 := hLn
              rw [← List.take_append_drop MAX_BACKUPS
                (sortDesc (dirNames (setEntry cs y (FsNode.dir dcs))))] at h2
              exact (List.nodup_append.mp h2).2.2
            exact hdisj hytake (he ▸ hzdrop)
          have hzdirs : z ∈ dirNames cs := by
            rcases List.mem_cons.mp (hperm.mem_iff.mp hzD) with h | h
            · exact absurd h hzney
            · exact h
          exact pyLt_trans (hall z hzdirs) (hbelow y hytake)
        · exact hall y hydirs

theorem inv_fold (seq : List (String × FsNode)) :
    ∀ (cs : List (String × FsNode)) (P : String → Prop),
      (∀ p ∈ seq, ∃ dcs, p.2 = FsNode.dir dcs) →
      (namesOf cs).Nodup →
      (∀ x, P x → x ∉ dirNames cs → EvictedBelow cs x) →
      (namesOf (backupSequence cs seq)).Nodup ∧
      (∀ x, (x ∈ seq.map Prod.fst ∨ P x) → x ∉ dirNames (backupSequence cs seq) →
        EvictedBelow (backupSequence cs seq) x) ∧
      (seq ≠ [] → (dirNames (backupSequence cs seq)).length ≤ MAX_BACKUPS) := by
  induction seq with
  | nil =>
    intro cs P hdirs hn h3
    refine ⟨hn, ?_, fun hc => absurd rfl hc⟩
    intro x hx
    rcases hx with hx | hx
    · simp at hx
    · exact h3 x hx
  | cons p rest ih =>
    intro cs P hdirs hn h3
    obtain ⟨t, g⟩ := p
    obtain ⟨dcs, hdcs⟩ := hdirs (t, g) (List.mem_cons_self _ _)
    have hg : g = FsNode.dir dcs := hdcs
    subst hg
    obtain ⟨hn2, hlen2, h32⟩ := inv_step t dcs hn P h3
    have hrec := ih (successfulBackup cs t (FsNode.dir dcs)) (fun x => x = t ∨ P x)
      (fun q hq => hdirs q (List.mem_cons_of_mem _ hq)) hn2 h32
    have hstep : backupSequence cs ((t, FsNode.dir dcs) :: rest) =
        backupSequence (successfulBackup cs t (FsNode.dir dcs)) rest := rfl
    refine ⟨by rw [hstep]; exact hrec.1, ?_, ?_⟩
    · intro x hx hxK
      rw [hstep] at hxK ⊢
      apply hrec.2.1 x _ hxK
      rcases hx with hx | hx
      · rw [List.map_cons, List.mem_cons] at hx
        rcases hx with hx | hx
        · exact Or.inr (Or.inl hx)
        · exact Or.inl hx
      · exact Or.inr (Or.inr hx)
    · intro _
      rw [hstep]
      cases hr : rest with
      | nil => exact hlen2
      | cons q rest2 =>
        rw [← hr]
        exact hrec.2.2 (by rw [hr]; exact List.cons_ne_nil q rest2)

/-!
## The claims
-/

/-- Claim C1 (retention bound invariant): starting from any well-formed
program folder, after any non-empty sequence of successful backups of the
item (each writing a directory generation payload and running
`cleanup_old_backups`), the newest-first listing of its generations has at
most `MAX_BACKUPS` entries, is strictly descending by timestamp string, and
every generation that ever existed but is no longer listed is older than
every listed one (the listed entries are the most recent ones). -/
theorem c1_retention_bound (cs0 : List (String × FsNode))
    (seq : List (String × FsNode)) (h0 : (namesOf cs0).Nodup)
    (hdirs : ∀ p ∈ seq, ∃ dcs, p.2 = FsNode.dir dcs) (hne : seq ≠ []) :
    (listGenerations (backupSequence cs0 seq)).length ≤ MAX_BACKUPS ∧
    StrictDesc (listGenerations (backupSequence cs0 seq)) ∧
    ∀ x, (x ∈ dirNames cs0 ∨ x ∈ seq.map Prod.fst) →
      x ∉ listGenerations (backupSequence cs0 seq) →
      ∀ y ∈ listGenerations (backupSequence cs0 seq), pyLt x y := by
  obtain ⟨hnodup, hclause, hlen⟩ :=
    inv_fold seq cs0 (fun x => x ∈ dirNames cs0) hdirs h0
      (fun x hx hnx => absurd hx hnx)
  have hmem : ∀ z, z ∈ listGenerations (backupSequence cs0 seq) ↔
      z ∈ dirNames (backupSequence cs0 seq) := fun z => mem_sortDesc
  refine ⟨?_, ?_, ?_⟩
  · rw [listGenerations, (sortDesc_perm _).length_eq]
    exact hlen hne
  · exact strictDesc_of_sorted_nodup (sortDesc_sorted _)
      (sortDesc_nodup (dirNames_nodup hnodup))
  · intro x hx hxgen y hy
    have hxd : x ∉ dirNames (backupSequence cs0 seq) := fun hc =>
      hxgen ((hmem x).mpr hc)
    have hx2 : x ∈ seq.map Prod.fst ∨ x ∈ dirNames cs0 := hx.symm
    exact (hclause x hx2 hxd).2 y ((hmem y).mp hy)

theorem c1_retention_bound_witness :
    (namesOf ([] : List (String × FsNode))).Nodup ∧
    ([("t1", FsNode.dir []), ("t2", FsNode.dir [])] ≠
      ([] : List (String × FsNode))) ∧
    ((listGenerations (backupSequence []
        [("t1", FsNode.dir []), ("t2", FsNode.dir [])])).length ≤ MAX_BACKUPS ∧
      StrictDesc (listGenerations (backupSequence []
        [("t1", FsNode.dir []), ("t2", FsNode.dir [])])) ∧
      ∀ x, (x ∈ dirNames ([] : List (String × FsNode)) ∨
          x ∈ [("t1", FsNode.dir []), ("t2", FsNode.dir [])].map Prod.fst) →
        x ∉ listGenerations (backupSequence []
          [("t1", FsNode.dir []), ("t2", FsNode.dir [])]) →
        ∀ y ∈ listGenerations (backupSequence []
          [("t1", FsNode.dir []), ("t2", FsNode.dir [])]), pyLt x y) := by
  refine ⟨by simp [namesOf_nil], by simp, ?_⟩
  apply c1_retention_bound [] [("t1", FsNode.dir []), ("t2", FsNode.dir [])]
    (by simp [namesOf_nil])
  · intro p hp
    rcases List.mem_cons.mp hp with h | h
    · exact ⟨[], by rw [h]⟩
    · rcases List.mem_cons.mp h with h2 | h2
      · exact ⟨[], by rw [h2]⟩
      · simp at h2
  · simp

/-- Claim C2 (eviction selection): on a newest-first (strictly descending)
generation list, the eviction selection of `cleanup_old_backups` equals the
elements at index at least `maxKeep`, has exactly `max 0 (length - maxKeep)`
elements, is empty when the list fits, and every selected generation is
older than every kept one. -/
theorem c2_eviction_selection (gens : List String) (maxKeep : Nat)
    (hs : StrictDesc gens) :
    selectEvictions gens maxKeep = gens.drop maxKeep ∧
    ((selectEvictions gens maxKeep).length : Int) =
      max 0 ((gens.length : Int) - (maxKeep : Int)) ∧
    (gens.length ≤ maxKeep → selectEvictions gens maxKeep = []) ∧
    ∀ d ∈ selectEvictions gens maxKeep, ∀ k ∈ gens.take maxKeep, pyLt d k := by
  have hdrop : selectEvictions gens maxKeep = gens.drop maxKeep := by
    rw [selectEvictions]
    by_cases h : gens.length > maxKeep
    · rw [if_pos h]
    · rw [if_neg h, List.drop_eq_nil_of_le (Nat.le_of_not_lt h)]
  refine ⟨hdrop, ?_, ?_, ?_⟩
  · rw [hdrop, List.length_drop]
    omega
  · intro h
    rw [selectEvictions, if_neg (Nat.not_lt.mpr h)]
  · intro d hd k hk
    rw [hdrop] at hd
    have hp := hs
    rw [StrictDesc, ← List.take_append_drop maxKeep gens, List.pairwise_append] at hp
    exact hp.2.2 k hk d hd

theorem c2_eviction_selection_witness :
    StrictDesc ["b", "a"] ∧
    (selectEvictions ["b", "a"] 1 = ["b", "a"].drop 1 ∧
      ((selectEvictions ["b", "a"] 1).length : Int) =
        max 0 ((["b", "a"].length : Int) - (1 : Int)) ∧
      (["b", "a"].length ≤ 1 → selectEvictions ["b", "a"] 1 = []) ∧
      ∀ d ∈ selectEvictions ["b", "a"] 1, ∀ k ∈ ["b", "a"].take 1, pyLt d k) :=
  ⟨by decide, c2_eviction_selection ["b", "a"] 1 (by decide)⟩

theorem get_single (cs : List (String × FsNode)) (n : String) :
    (FsNode.dir cs).get [n] = getEntry cs n := by
  cases h : getEntry cs n with
  | none => rw [get_cons_none h]
  | some c => rw [get_cons_some h, get_nil]

theorem update_for_git_ok (item : String) (src : FsNode) (cs : List (String × FsNode))
    (hfg : absentOrDir (getEntry cs "for-git")) :
    ∃ cs2, update_for_git item src (FsNode.dir cs) = some (FsNode.dir cs2, true) ∧
      (FsNode.dir cs2).get ["for-git", item] = some src ∧
      ∀ n, n ≠ "for-git" → getEntry cs2 n = getEntry cs n := by
  obtain ⟨csa, fgs0, hmk, hget0, hframeA⟩ :
      ∃ csa fgs0, mkdirAt (FsNode.dir cs) ["for-git"] = some (FsNode.dir csa) ∧
        getEntry csa "for-git" = some (FsNode.dir fgs0) ∧
        ∀ n, n ≠ "for-git" → getEntry csa n = getEntry cs n := by
    cases hg : getEntry cs "for-git" with
    | none =>
      exact ⟨setEntry cs "for-git" (FsNode.dir []), [], mkdirAt_single_none hg,
        getEntry_setEntry_self cs "for-git" (FsNode.dir []),
        fun n hn => getEntry_setEntry_ne cs _ hn⟩
    | some w =>
      cases w with
      | file c =>
        rw [hg] at hfg
        exact absurd hfg (by simp [absentOrDir])
      | dir fgs => exact ⟨cs, fgs, mkdirAt_single_dir hg, hg, fun n hn => rfl⟩
  have hcore : ∃ fgs1, getEntry fgs1 item = none ∧
      update_for_git item src (FsNode.dir cs) =
        some (FsNode.dir (setEntry csa "for-git"
          (FsNode.dir (setEntry fgs1 item src))), true) := by
    cases hgi : getEntry fgs0 item with
    | none =>
      refine ⟨fgs0, hgi, ?_⟩
      have hscrut : (FsNode.dir csa).get ["for-git", item] = none := by
        rw [get_cons_some hget0, get_single, hgi]
      cases src with
      | dir dcs =>
        have hcopy : copytreeAt (FsNode.dir csa) ["for-git", item] (FsNode.dir dcs) =
            some (FsNode.dir (setEntry csa "for-git"
              (FsNode.dir (setEntry fgs0 item (FsNode.dir dcs))))) := by
          rw [copytreeAt_cons2_some hget0, copytreeAt_single_none hgi]
          rfl
        simp only [update_for_git, hmk, hscrut, hcopy]
      | file c =>
        have hwf : copy2At (FsNode.dir csa) ["for-git", item] item c =
            some (FsNode.dir (setEntry csa "for-git"
              (FsNode.dir (setEntry fgs0 item (FsNode.file c))))) := by
          rw [copy2At, hscrut]
          rw [writeFile_cons2_some hget0, writeFile_single_none hgi]
          rfl
        simp only [update_for_git, hmk, hscrut, hwf]
    | some w =>
      refine ⟨delEntry fgs0 item, getEntry_delEntry_self fgs0 item, ?_⟩
      have hscrut : (FsNode.dir csa).get ["for-git", item] = some w := by
        rw [get_cons_some hget0, get_single, hgi]
      have hrm : removeAt (FsNode.dir csa) ["for-git", item] =
          some (FsNode.dir (setEntry csa "for-git"
            (FsNode.dir (delEntry fgs0 item)))) := by
        rw [removeAt_cons2_some hget0, removeAt_single_some hgi]
        rfl
      have hget1 : getEntry (setEntry csa "for-git" (FsNode.dir (delEntry fgs0 item)))
          "for-git" = some (FsNode.dir (delEntry fgs0 item)) :=
        getEntry_setEntry_self _ _ _
      cases src with
      | dir dcs =>
        have hcopy : copytreeAt (FsNode.dir (setEntry csa "for-git"
            (FsNode.dir (delEntry fgs0 item)))) ["for-git", item] (FsNode.dir dcs) =
            some (FsNode.dir (setEntry csa "for-git"
              (FsNode.dir (setEntry (delEntry fgs0 item) item (FsNode.dir dcs))))) := by
          rw [copytreeAt_cons2_some hget1,
            copytreeAt_single_none (getEntry_delEntry_self fgs0 item)]
          simp [setEntry_setEntry]
        simp only [update_for_git, hmk, hscrut, hrm, hcopy]
      | file c =>
        have hscrut2 : (FsNode.dir (setEntry csa "for-git"
            (FsNode.dir (delEntry fgs0 item)))).get ["for-git", item] = none := by
          rw [get_cons_some hget1, get_single, getEntry_delEntry_self]
        have hwf : copy2At (FsNode.dir (setEntry csa "for-git"
            (FsNode.dir (delEntry fgs0 item)))) ["for-git", item] item c =
            some (FsNode.dir (setEntry csa "for-git"
              (FsNode.dir (setEntry (delEntry fgs0 item) item (FsNode.file c))))) := by
          rw [copy2At, hscrut2]
          rw [writeFile_cons2_some hget1,
            writeFile_single_none (getEntry_delEntry_self fgs0 item)]
          simp [setEntry_setEntry]
        simp only [update_for_git, hmk, hscrut, hrm, hwf]
  obtain ⟨fgs1, hget1, hval⟩ := hcore
  refine ⟨setEntry csa "for-git" (FsNode.dir (setEntry fgs1 item src)), hval, ?_, ?_⟩
  · rw [get_cons_some (getEntry_setEntry_self csa "for-git" _), get_single,
      getEntry_setEntry_self]
  · intro n hn
    rw [getEntry_setEntry_ne _ _ hn, hframeA n hn]

theorem getEntry_cleanup_children (gcs : List (String × FsNode)) (n : String) :
    getEntry (cleanup_children gcs) n =
      if (! decide (n ∈ selectEvictions (sortDesc (dirNames gcs)) MAX_BACKUPS))
      then getEntry gcs n else none := by
  have h := getEntry_filter_name
    (fun x => ! decide (x ∈ selectEvictions (sortDesc (dirNames gcs)) MAX_BACKUPS)) gcs n
  simpa [cleanup_children] using h

theorem ts_not_evicted {cs1 : List (String × FsNode)} {ts : String}
    (hn1 : (namesOf cs1).Nodup) (hold : ∀ e ∈ cs1, pyLt e.1 ts)
    (pcs : List (String × FsNode)) :
    ts ∉ selectEvictions (sortDesc (dirNames (setEntry cs1 ts (FsNode.dir pcs))))
      MAX_BACKUPS := by
  have hnD : (dirNames (setEntry cs1 ts (FsNode.dir pcs))).Nodup :=
    dirNames_nodup (namesOf_setEntry_nodup hn1 _)
  rw [selectEvictions]
  split
  · apply not_mem_drop_of_max (sortDesc_sorted _) (sortDesc_nodup hnD) ?_
      (show 1 ≤ MAX_BACKUPS by decide)
    intro y hy hne
    have hyD : y ∈ dirNames (setEntry cs1 ts (FsNode.dir pcs)) := mem_sortDesc.mp hy
    rcases (mem_dirNames_setEntry_dir pcs).mp hyD with h | h
    · exact absurd h hne
    · rcases List.mem_map.mp (mem_namesOf_of_mem_dirNames h) with ⟨e, he, hee⟩
      exact hee ▸ hold e he
  · simp

theorem backup_one_tail_ok (item ts : String) (src : FsNode)
    (cs cs1 : List (String × FsNode)) (hne : item ≠ "for-git")
    (hfg : absentOrDir (getEntry cs "for-git")) (hn1 : (namesOf cs1).Nodup)
    (hold : ∀ e ∈ cs1, pyLt e.1 ts) :
    ∃ cs5,
      backup_one_tail item src
        (FsNode.dir (setEntry cs item
          (FsNode.dir (setEntry cs1 ts (FsNode.dir [(item, src)]))))) =
        some (FsNode.dir cs5, 1, 0) ∧
      (FsNode.dir cs5).get [item, ts] = some (FsNode.dir [(item, src)]) ∧
      (FsNode.dir cs5).get [item, ts, item] = some src ∧
      (FsNode.dir cs5).get ["for-git", item] = some src ∧
      ∀ n, n ≠ item → n ≠ "for-git" → getEntry cs5 n = getEntry cs n := by
  have hfg2 : absentOrDir (getEntry (setEntry cs item
      (FsNode.dir (setEntry cs1 ts (FsNode.dir [(item, src)])))) "for-git") := by
    rw [getEntry_setEntry_ne _ _ (fun he => hne he.symm)]
    exact hfg
  obtain ⟨cs2, hufg, hmirror, hframe2⟩ := update_for_git_ok item src _ hfg2
  have hitem2 : getEntry cs2 item =
      some (FsNode.dir (setEntry cs1 ts (FsNode.dir [(item, src)]))) := by
    rw [hframe2 item hne, getEntry_setEntry_self]
  have hclean : cleanup_old_backups (FsNode.dir cs2) item =
      some (FsNode.dir (setEntry cs2 item (FsNode.dir
        (cleanup_children (setEntry cs1 ts (FsNode.dir [(item, src)])))))) := by
    simp only [cleanup_old_backups, hitem2]
  have hkeep : getEntry (cleanup_children (setEntry cs1 ts
      (FsNode.dir [(item, src)]))) ts = some (FsNode.dir [(item, src)]) := by
    rw [getEntry_cleanup_children]
    have hni := ts_not_evicted hn1 hold [(item, src)]
    rw [if_pos (by simpa using hni)]
    exact getEntry_setEntry_self cs1 ts _
  refine ⟨setEntry cs2 item (FsNode.dir (cleanup_children
    (setEntry cs1 ts (FsNode.dir [(item, src)])))), ?_, ?_, ?_, ?_, ?_⟩
  · simp only [backup_one_tail, hufg, hclean]
  · rw [get_cons_some (getEntry_setEntry_self cs2 item _), get_single, hkeep]
  · rw [get_cons_some (getEntry_setEntry_self cs2 item _), get_cons_some hkeep,
      get_single]
    simp [getEntry_cons]
  · rw [get_dir_setEntry_ne cs2 _ (fun he => hne he.symm) [item]]
    exact hmirror
  · intro n hni hnf
    rw [getEntry_setEntry_ne _ _ hni, hframe2 n hnf, getEntry_setEntry_ne _ _ hni]

theorem backup_one_ok (cfg : List (String × FsNode)) (cs : List (String × FsNode))
    (item ts : String) (src : FsNode) (hsrc : getEntry cfg item = some src)
    (hne : item ≠ "for-git") (hfg : absentOrDir (getEntry cs "for-git"))
    (hitem : ∀ n, getEntry cs item = some n →
      ∃ cs1, n = FsNode.dir cs1 ∧ (namesOf cs1).Nodup ∧ ∀ e ∈ cs1, pyLt e.1 ts) :
    ∃ cs5, backup_one cfg ts (FsNode.dir cs) item = some (FsNode.dir cs5, 1, 0) ∧
      (FsNode.dir cs5).get [item, ts] = some (FsNode.dir [(item, src)]) ∧
      (FsNode.dir cs5).get [item, ts, item] = some src ∧
      (FsNode.dir cs5).get ["for-git", item] = some src ∧
      ∀ n, n ≠ item → n ≠ "for-git" → getEntry cs5 n = getEntry cs n := by
  have key : ∀ cs1 : List (String × FsNode),
      mkdirAt (FsNode.dir cs) [item] =
        some (FsNode.dir (setEntry cs item (FsNode.dir cs1))) →
      (namesOf cs1).Nodup → (∀ e ∈ cs1, pyLt e.1 ts) →
      ∃ cs5, backup_one cfg ts (FsNode.dir cs) item = some (FsNode.dir cs5, 1, 0) ∧
        (FsNode.dir cs5).get [item, ts] = some (FsNode.dir [(item, src)]) ∧
        (FsNode.dir cs5).get [item, ts, item] = some src ∧
        (FsNode.dir cs5).get ["for-git", item] = some src ∧
        ∀ n, n ≠ item → n ≠ "for-git" → getEntry cs5 n = getEntry cs n := by
    intro cs1 hmk hn1 hold
    have htsnone : getEntry cs1 ts = none :=
      getEntry_none_iff.mpr fun e he hee => pyLt_irrefl ts (hee ▸ hold e he)
    have hself : getEntry (setEntry cs item (FsNode.dir cs1)) item =
        some (FsNode.dir cs1) := getEntry_setEntry_self cs item _
    cases src with
    | dir scs =>
      have hcopy : copytreeAt (FsNode.dir (setEntry cs item (FsNode.dir cs1)))
          [item, ts, item] (FsNode.dir scs) =
          some (FsNode.dir (setEntry cs item (FsNode.dir
            (setEntry cs1 ts (FsNode.dir [(item, FsNode.dir scs)]))))) := by
        rw [copytreeAt_cons2_some hself, copytreeAt_cons2_none htsnone,
          copytreeAt_single_none (getEntry_nil item)]
        simp [setEntry_setEntry, setEntry_nil]
      obtain ⟨cs5, htail, hg2, hg3, hg4, hframe⟩ :=
        backup_one_tail_ok item ts (FsNode.dir scs) cs cs1 hne hfg hn1 hold
      refine ⟨cs5, ?_, hg2, hg3, hg4, hframe⟩
      simp only [backup_one, hmk, hsrc, hcopy]
      exact htail
    | file c =>
      have hmk2 : mkdirAt (FsNode.dir (setEntry cs item (FsNode.dir cs1))) [item, ts] =
          some (FsNode.dir (setEntry cs item (FsNode.dir
            (setEntry cs1 ts (FsNode.dir []))))) := by
        rw [mkdirAt_cons2 hself, mkdirAt_single_none htsnone]
        simp [setEntry_setEntry]
      have hget3 : (FsNode.dir (setEntry cs item (FsNode.dir
          (setEntry cs1 ts (FsNode.dir []))))).get [item, ts, item] = none := by
        rw [get_cons_some (getEntry_setEntry_self _ _ _),
          get_cons_some (getEntry_setEntry_self _ _ _), get_single, getEntry_nil]
      have hwf : copy2At (FsNode.dir (setEntry cs item (FsNode.dir
          (setEntry cs1 ts (FsNode.dir []))))) [item, ts, item] item c =
          some (FsNode.dir (setEntry cs item (FsNode.dir
            (setEntry cs1 ts (FsNode.dir [(item, FsNode.file c)]))))) := by
        rw [copy2At, hget3]
        rw [writeFile_cons2_some (getEntry_setEntry_self _ _ _),
          writeFile_cons2_some (getEntry_setEntry_self _ _ _),
          writeFile_single_none (getEntry_nil item)]
        simp [setEntry_setEntry, setEntry_nil]
      obtain ⟨cs5, htail, hg2, hg3, hg4, hframe⟩ :=
        backup_one_tail_ok item ts (FsNode.file c) cs cs1 hne hfg hn1 hold
      refine ⟨cs5, ?_, hg2, hg3, hg4, hframe⟩
      simp only [backup_one, hmk, hsrc, hmk2, hwf]
      exact htail
  cases hg : getEntry cs item with
  | none =>
    refine key [] ?_ (by simp [namesOf_nil]) (by intro e he; simp at he)
    rw [mkdirAt_single_none hg]
  | some n =>
    obtain ⟨cs1, rfl, hn1, hold⟩ := hitem n hg
    refine key cs1 ?_ hn1 hold
    rw [mkdirAt_single_dir hg, setEntry_self_of_getEntry hg]

/-- Claim C3 (on-disk layout of a generation): backing up a single-file item
named `item` with contents `c` at timestamp `ts` (fresh program folder,
usable mirror root) succeeds and creates the payload at
`<backupRoot>/item/ts/item` as a file (not a directory), with the
intermediate timestamp folder present as a directory, and the mirror copy
`<backupRoot>/for-git/item` is a file with identical contents. -/
theorem c3_single_file_layout (cfg cs : List (String × FsNode)) (item ts c : String)
    (hsrc : getEntry cfg item = some (FsNode.file c)) (hne : item ≠ "for-git")
    (hfg : absentOrDir (getEntry cs "for-git")) (hitem : getEntry cs item = none) :
    ∃ cs5, backup_one cfg ts (FsNode.dir cs) item = some (FsNode.dir cs5, 1, 0) ∧
      (FsNode.dir cs5).get [item, ts] =
        some (FsNode.dir [(item, FsNode.file c)]) ∧
      (FsNode.dir cs5).get [item, ts, item] = some (FsNode.file c) ∧
      (FsNode.dir cs5).get ["for-git", item] = some (FsNode.file c) := by
  obtain ⟨cs5, h1, h2, h3, h4, _⟩ :=
    backup_one_ok cfg cs item ts (FsNode.file c) hsrc hne hfg
      (fun n hn => absurd hn (by rw [hitem]; simp))
  exact ⟨cs5, h1, h2, h3, h4⟩

theorem c3_single_file_layout_witness :
    getEntry [("bashrc", FsNode.file "x")] "bashrc" = some (FsNode.file "x") ∧
    ("bashrc" : String) ≠ "for-git" ∧
    getEntry ([] : List (String × FsNode)) "bashrc" = none ∧
    ∃ cs5, backup_one [("bashrc", FsNode.file "x")] "t1" (FsNode.dir []) "bashrc" =
        some (FsNode.dir cs5, 1, 0) ∧
      (FsNode.dir cs5).get ["bashrc", "t1"] =
        some (FsNode.dir [("bashrc", FsNode.file "x")]) ∧
      (FsNode.dir cs5).get ["bashrc", "t1", "bashrc"] = some (FsNode.file "x") ∧
      (FsNode.dir cs5).get ["for-git", "bashrc"] = some (FsNode.file "x") :=
  ⟨rfl, by decide, rfl,
    c3_single_file_layout [("bashrc", FsNode.file "x")] [] "bashrc" "t1" "x" rfl
      (by decide) trivial rfl⟩

/-- Claim C5 (amended): when the generation copy can succeed and the mirror
root is absent or a directory, the item contributes exactly one success and
no failure — the mirror publish and the retention deletions never add a
failure for it — and the just-created generation payload is present after
the run (its timestamp being newer than all existing generations).  The
unamended claim is refuted by `c5_counterexample_mirror_prep`: when the
`for-git` path exists as a file, the `mkdir` inside `update_for_git` raises
outside its internal `try`, the per-item `except` catches it, and
`fail_count` is incremented even though the generation was created. -/
theorem c5_soft_warning_amended (cfg cs : List (String × FsNode)) (item ts : String)
    (src : FsNode) (hsrc : getEntry cfg item = some src) (hne : item ≠ "for-git")
    (hfg : absentOrDir (getEntry cs "for-git"))
    (hitem : ∀ n, getEntry cs item = some n →
      ∃ cs1, n = FsNode.dir cs1 ∧ (namesOf cs1).Nodup ∧ ∀ e ∈ cs1, pyLt e.1 ts) :
    ∃ cs5, backup_one cfg ts (FsNode.dir cs) item = some (FsNode.dir cs5, 1, 0) ∧
      (FsNode.dir cs5).get [item, ts, item] = some src := by
  obtain ⟨cs5, h1, _, h3, _, _⟩ :=
    backup_one_ok cfg cs item ts src hsrc hne hfg hitem
  exact ⟨cs5, h1, h3⟩

theorem c5_counterexample_mirror_prep :
    backup_one [("a", FsNode.file "v")] "T"
        (FsNode.dir [("for-git", FsNode.file "z")]) "a" =
      some (FsNode.dir [("for-git", FsNode.file "z"),
        ("a", FsNode.dir [("T", FsNode.dir [("a", FsNode.file "v")])])], 1, 1) := by
  rfl

theorem c5_soft_warning_amended_witness :
    getEntry [("a", FsNode.file "v")] "a" = some (FsNode.file "v") ∧
    ∃ cs5, backup_one [("a", FsNode.file "v")] "T2"
        (FsNode.dir [("a", FsNode.dir [("T1", FsNode.dir [("a", FsNode.file "o")])])])
        "a" = some (FsNode.dir cs5, 1, 0) ∧
      (FsNode.dir cs5).get ["a", "T2", "a"] = some (FsNode.file "v") := by
  refine ⟨rfl, ?_⟩
  apply c5_soft_warning_amended [("a", FsNode.file "v")]
    [("a", FsNode.dir [("T1", FsNode.dir [("a", FsNode.file "o")])])] "a" "T2"
    (FsNode.file "v") rfl (by decide) trivial
  intro n hn
  refine ⟨[("T1", FsNode.dir [("a", FsNode.file "o")])], ?_, by decide, by decide⟩
  have hval : getEntry [("a", FsNode.dir [("T1", FsNode.dir [("a", FsNode.file "o")])])]
      "a" = some (FsNode.dir [("T1", FsNode.dir [("a", FsNode.file "o")])]) := rfl
  rw [hval] at hn
  injection hn with h2
  exact h2.symm

/-- Claim C9 (same-second collision for a directory item): if the generation
folder for the batch timestamp already contains the item's payload, a second
backup of that directory item in the same second fails — `shutil.copytree`
raises because the destination exists — the item's `fail_count` is
incremented and the backup root is left exactly unchanged, so the
pre-existing generation payload is neither replaced nor merged. -/
theorem c9_same_second_dir_collision (cfg cs scs : List (String × FsNode))
    (item ts : String) (x : FsNode)
    (hsrc : getEntry cfg item = some (FsNode.dir scs))
    (hexist : (FsNode.dir cs).get [item, ts, item] = some x) :
    backup_one cfg ts (FsNode.dir cs) item = some (FsNode.dir cs, 0, 1) := by
  cases hg : getEntry cs item with
  | none => rw [get_cons_none hg] at hexist; cases hexist
  | some c =>
    rw [get_cons_some hg] at hexist
    cases c with
    | file c0 => simp [FsNode.get] at hexist
    | dir cs1 =>
      have hmk : mkdirAt (FsNode.dir cs) [item] = some (FsNode.dir cs) :=
        mkdirAt_single_dir hg
      have hct : copytreeAt (FsNode.dir cs) [item, ts, item] (FsNode.dir scs) = none :=
        copytreeAt_none_of_get (FsNode.dir scs)
          (by rw [get_cons_some hg]; exact hexist)
      simp only [backup_one, hmk, hsrc, hct]

theorem c9_same_second_dir_collision_witness :
    getEntry [("nvim", FsNode.dir [("f", FsNode.file "y")])] "nvim" =
      some (FsNode.dir [("f", FsNode.file "y")]) ∧
    (FsNode.dir [("nvim", FsNode.dir [("T", FsNode.dir
      [("nvim", FsNode.dir [("f", FsNode.file "old")])])])]).get
      ["nvim", "T", "nvim"] = some (FsNode.dir [("f", FsNode.file "old")]) ∧
    backup_one [("nvim", FsNode.dir [("f", FsNode.file "y")])] "T"
      (FsNode.dir [("nvim", FsNode.dir [("T", FsNode.dir
        [("nvim", FsNode.dir [("f", FsNode.file "old")])])])]) "nvim" =
      some (FsNode.dir [("nvim", FsNode.dir [("T", FsNode.dir
        [("nvim", FsNode.dir [("f", FsNode.file "old")])])])], 0, 1) :=
  ⟨rfl, rfl,
    c9_same_second_dir_collision [("nvim", FsNode.dir [("f", FsNode.file "y")])]
      [("nvim", FsNode.dir [("T", FsNode.dir
        [("nvim", FsNode.dir [("f", FsNode.file "old")])])])]
      [("f", FsNode.file "y")] "nvim" "T" (FsNode.dir [("f", FsNode.file "old")])
      rfl rfl⟩

theorem backup_one_tail_succ {item : String} {src root r : FsNode} {s f : Nat}
    (h : backup_one_tail item src root = some (r, s, f)) : s = 1 := by
  cases hu : update_for_git item src root with
  | none =>
    simp only [backup_one_tail, hu, Option.some_inj, Prod.mk.injEq] at h
    exact h.2.1.symm
  | some p =>
    obtain ⟨root4, b⟩ := p
    simp only [backup_one_tail, hu] at h
    cases hc : cleanup_old_backups root4 item with
    | none =>
      rw [hc] at h
      simp only [Option.some_inj, Prod.mk.injEq] at h
      exact h.2.1.symm
    | some root5 =>
      rw [hc] at h
      simp only [Option.some_inj, Prod.mk.injEq] at h
      exact h.2.1.symm

/-- Claim C10 (frame on generation failure): when an item's iteration ends
with `fail_count` incremented and `success_count` not (source missing, or
the generation copy failed), the item's mirror copy under `for-git` is
untouched and every existing generation of the item is still present — the
mirror publish and the retention cleanup only run after a successful
generation copy. -/
theorem c10_frame_on_failure (cfg cs : List (String × FsNode)) (item ts : String)
    (r : FsNode) (hts : ts ≠ item)
    (hrun : backup_one cfg ts (FsNode.dir cs) item = some (r, 0, 1)) :
    r.get ["for-git", item] = (FsNode.dir cs).get ["for-git", item] ∧
    ∀ t2 g, (FsNode.dir cs).get [item, t2] = some g → r.get [item, t2] = some g := by
  cases hg : getEntry cs item with
  | some n =>
    cases n with
    | file c0 =>
      simp only [backup_one, mkdirAt_single_file hg] at hrun
      exact Option.noConfusion hrun
    | dir cs1 =>
      have hmk : mkdirAt (FsNode.dir cs) [item] = some (FsNode.dir cs) :=
        mkdirAt_single_dir hg
      have hid : r = FsNode.dir cs →
          r.get ["for-git", item] = (FsNode.dir cs).get ["for-git", item] ∧
          ∀ t2 g, (FsNode.dir cs).get [item, t2] = some g →
            r.get [item, t2] = some g := by
        rintro rfl
        exact ⟨rfl, fun t2 g h => h⟩
      cases hcfg : getEntry cfg item with
      | none =>
        simp only [backup_one, hmk, hcfg, Option.some_inj, Prod.mk.injEq] at hrun
        exact hid hrun.1.symm
      | some srcn =>
        cases srcn with
        | dir scs =>
          cases hct : copytreeAt (FsNode.dir cs) [item, ts, item] (FsNode.dir scs) with
          | none =>
            simp only [backup_one, hmk, hcfg, hct, Option.some_inj,
              Prod.mk.injEq] at hrun
            exact hid hrun.1.symm
          | some root2 =>
            simp only [backup_one, hmk, hcfg, hct] at hrun
            exact absurd (backup_one_tail_succ hrun) (by decide)
        | file c =>
          cases hts2 : getEntry cs1 ts with
          | some tn =>
            cases tn with
            | file tc =>
              have hmk2 : mkdirAt (FsNode.dir cs) [item, ts] = none := by
                rw [mkdirAt_cons2 hg, mkdirAt_single_file hts2]
                rfl
              simp only [backup_one, hmk, hcfg, hmk2, Option.some_inj,
                Prod.mk.injEq] at hrun
              exact hid hrun.1.symm
            | dir tcs =>
              have hmk2 : mkdirAt (FsNode.dir cs) [item, ts] =
                  some (FsNode.dir cs) := by
                rw [mkdirAt_cons2 hg, mkdirAt_single_dir hts2]
                simp [setEntry_self_of_getEntry hg]
              cases hcp : copy2At (FsNode.dir cs) [item, ts, item] item c with
              | none =>
                simp only [backup_one, hmk, hcfg, hmk2, hcp, Option.some_inj,
                  Prod.mk.injEq] at hrun
                exact hid hrun.1.symm
              | some root3 =>
                simp only [backup_one, hmk, hcfg, hmk2, hcp] at hrun
                exact absurd (backup_one_tail_succ hrun) (by decide)
          | none =>
            have hmk2 : mkdirAt (FsNode.dir cs) [item, ts] =
                some (FsNode.dir (setEntry cs item
                  (FsNode.dir (setEntry cs1 ts (FsNode.dir []))))) := by
              rw [mkdirAt_cons2 hg, mkdirAt_single_none hts2]
              rfl
            have hconc : ∀ rx, rx = FsNode.dir (setEntry cs item
                (FsNode.dir (setEntry cs1 ts (FsNode.dir [])))) →
                rx.get ["for-git", item] = (FsNode.dir cs).get ["for-git", item] ∧
                ∀ t2 g, (FsNode.dir cs).get [item, t2] = some g →
                  rx.get [item, t2] = some g := by
              rintro rx rfl
              constructor
              · by_cases hfi : ("for-git" : String) = item
                · subst hfi
                  rw [get_cons_some (getEntry_setEntry_self cs "for-git"
                      (FsNode.dir (setEntry cs1 ts (FsNode.dir [])))), get_single,
                    getEntry_setEntry_ne _ _ (show ("for-git" : String) ≠ ts from
                      fun he => hts he.symm),
                    get_cons_some hg, get_single]
                · exact get_dir_setEntry_ne cs _ hfi [item]
              · intro t2 g hgg
                rw [get_cons_some hg, get_single] at hgg
                have ht2 : t2 ≠ ts := by
                  intro he
                  rw [he, hts2] at hgg
                  cases hgg
                rw [get_cons_some (getEntry_setEntry_self cs item _), get_single,
                  getEntry_setEntry_ne _ _ ht2, hgg]
            cases hcp : copy2At (FsNode.dir (setEntry cs item
                (FsNode.dir (setEntry cs1 ts (FsNode.dir []))))) [item, ts, item]
                item c with
            | none =>
              simp only [backup_one, hmk, hcfg, hmk2, hcp, Option.some_inj,
                Prod.mk.injEq] at hrun
              exact hconc r hrun.1.symm
            | some root3 =>
              simp only [backup_one, hmk, hcfg, hmk2, hcp] at hrun
              exact absurd (backup_one_tail_succ hrun) (by decide)
  | none =>
    have hmk : mkdirAt (FsNode.dir cs) [item] =
        some (FsNode.dir (setEntry cs item (FsNode.dir []))) :=
      mkdirAt_single_none hg
    have hconc : ∀ (X : FsNode) (rx : FsNode),
        rx = FsNode.dir (setEntry cs item X) →
        X.get [item] = none →
        rx.get ["for-git", item] = (FsNode.dir cs).get ["for-git", item] ∧
        ∀ t2 g, (FsNode.dir cs).get [item, t2] = some g →
          rx.get [item, t2] = some g := by
      rintro X rx rfl hX
      constructor
      · by_cases hfi : ("for-git" : String) = item
        · subst hfi
          rw [get_cons_some (getEntry_setEntry_self cs "for-git" X), hX,
            get_cons_none hg]
        · exact get_dir_setEntry_ne cs _ hfi [item]
      · intro t2 g hgg
        rw [get_cons_none hg] at hgg
        cases hgg
    cases hcfg : getEntry cfg item with
    | none =>
      simp only [backup_one, hmk, hcfg, Option.some_inj, Prod.mk.injEq] at hrun
      refine hconc (FsNode.dir []) r hrun.1.symm ?_
      rw [get_single, getEntry_nil]
    | some srcn =>
      cases srcn with
      | dir scs =>
        cases hct : copytreeAt (FsNode.dir (setEntry cs item (FsNode.dir [])))
            [item, ts, item] (FsNode.dir scs) with
        | none =>
          simp only [backup_one, hmk, hcfg, hct, Option.some_inj,
            Prod.mk.injEq] at hrun
          refine hconc (FsNode.dir []) r hrun.1.symm ?_
          rw [get_single, getEntry_nil]
        | some root2 =>
          simp only [backup_one, hmk, hcfg, hct] at hrun
          exact absurd (backup_one_tail_succ hrun) (by decide)
      | file c =>
        have hmk2 : mkdirAt (FsNode.dir (setEntry cs item (FsNode.dir [])))
            [item, ts] = some (FsNode.dir (setEntry cs item
              (FsNode.dir [(ts, FsNode.dir [])]))) := by
          rw [mkdirAt_cons2 (getEntry_setEntry_self cs item (FsNode.dir [])),
            mkdirAt_single_none (getEntry_nil ts)]
          simp [setEntry_setEntry, setEntry_nil]
        cases hcp : copy2At (FsNode.dir (setEntry cs item
            (FsNode.dir [(ts, FsNode.dir [])]))) [item, ts, item] item c with
        | none =>
          simp only [backup_one, hmk, hcfg, hmk2, hcp, Option.some_inj,
            Prod.mk.injEq] at hrun
          refine hconc (FsNode.dir [(ts, FsNode.dir [])]) r hrun.1.symm ?_
          rw [get_single, getEntry_cons, if_neg hts, getEntry_nil]
        | some root3 =>
          simp only [backup_one, hmk, hcfg, hmk2, hcp] at hrun
          exact absurd (backup_one_tail_succ hrun) (by decide)

theorem c10_frame_on_failure_witness :
    ("T" : String) ≠ "a" ∧
    backup_one [] "T" (FsNode.dir [("for-git", FsNode.file "m")]) "a" =
      some (FsNode.dir [("for-git", FsNode.file "m"), ("a", FsNode.dir [])], 0, 1) ∧
    ((FsNode.dir [("for-git", FsNode.file "m"), ("a", FsNode.dir [])]).get
        ["for-git", "a"] =
      (FsNode.dir [("for-git", FsNode.file "m")]).get ["for-git", "a"] ∧
      ∀ t2 g, (FsNode.dir [("for-git", FsNode.file "m")]).get ["a", t2] = some g →
        (FsNode.dir [("for-git", FsNode.file "m"), ("a", FsNode.dir [])]).get
          ["a", t2] = some g) :=
  ⟨by decide, rfl,
    c10_frame_on_failure [] [("for-git", FsNode.file "m")] "a" "T"
      (FsNode.dir [("for-git", FsNode.file "m"), ("a", FsNode.dir [])])
      (by decide) rfl⟩

/-- Claim C6 (amended): the per-item error handling never aborts the batch
for a missing source or a failed copy, but `program_folder.mkdir` (line 154)
runs outside the per-item `try`, so the claim as stated is refuted by
`c6_counterexample_batch_abort` (a file blocking an item's program-folder
path aborts the whole batch).  Provided no selected item's program-folder
path is an existing non-directory: for a batch over `[A, B]` where `A`'s
source does not exist and `B`'s does, the run yields `successCount = 1`,
`failCount = 1`, and `B`'s generation and mirror copy are created
normally. -/
theorem c6_batch_independence_amended (cfg cs : List (String × FsNode))
    (A B ts : String) (src : FsNode) (hAB : A ≠ B) (hBfg : B ≠ "for-git")
    (hsrcA : getEntry cfg A = none) (hsrcB : getEntry cfg B = some src)
    (hfg : absentOrDir (getEntry cs "for-git"))
    (hA : absentOrDir (getEntry cs A)) (hB : getEntry cs B = none) :
    ∃ cs5, backup_items cfg [A, B] ts (FsNode.dir cs) [1, 2] =
        some (FsNode.dir cs5, 1, 1) ∧
      (FsNode.dir cs5).get [B, ts, B] = some src ∧
      (FsNode.dir cs5).get ["for-git", B] = some src := by
  have hidx1 : pyIndex [A, B] ((1 : Int) - 1) = some A := by
    norm_num [pyIndex]
  have hidx2 : pyIndex [A, B] ((2 : Int) - 1) = some B := by
    norm_num [pyIndex]
  have keyA : ∀ csA : List (String × FsNode),
      mkdirAt (FsNode.dir cs) [A] = some (FsNode.dir csA) →
      getEntry csA B = none → absentOrDir (getEntry csA "for-git") →
      ∃ cs5, backup_items cfg [A, B] ts (FsNode.dir cs) [1, 2] =
          some (FsNode.dir cs5, 1, 1) ∧
        (FsNode.dir cs5).get [B, ts, B] = some src ∧
        (FsNode.dir cs5).get ["for-git", B] = some src := by
    intro csA hmkA hBA hfgA
    have hstepA : backup_one cfg ts (FsNode.dir cs) A =
        some (FsNode.dir csA, 0, 1) := by
      simp only [backup_one, hmkA, hsrcA]
    obtain ⟨cs5, hB1, _, h3, h4, _⟩ := backup_one_ok cfg csA B ts src hsrcB hBfg hfgA
      (fun n hn => absurd hn (by rw [hBA]; simp))
    refine ⟨cs5, ?_, h3, h4⟩
    simp only [backup_items, hidx1, hstepA, hidx2, hB1]
  cases hgA : getEntry cs A with
  | none =>
    apply keyA (setEntry cs A (FsNode.dir [])) (mkdirAt_single_none hgA)
    · rw [getEntry_setEntry_ne _ _ (fun he => hAB he.symm)]
      exact hB
    · by_cases hfga : ("for-git" : String) = A
      · rw [hfga, getEntry_setEntry_self]
        trivial
      · rw [getEntry_setEntry_ne _ _ hfga]
        exact hfg
  | some w =>
    cases w with
    | file c =>
      rw [hgA] at hA
      exact absurd hA (by simp [absentOrDir])
    | dir d => exact keyA cs (mkdirAt_single_dir hgA) hB hfg

theorem c6_counterexample_batch_abort :
    backup_items [("b", FsNode.file "y")] ["a", "b"] "T"
      (FsNode.dir [("a", FsNode.file "blocker")]) [1, 2] = none := by
  rfl

theorem c6_batch_independence_amended_witness :
    ("a" : String) ≠ "b" ∧
    getEntry [("b", FsNode.file "y")] "a" = none ∧
    getEntry [("b", FsNode.file "y")] "b" = some (FsNode.file "y") ∧
    ∃ cs5, backup_items [("b", FsNode.file "y")] ["a", "b"] "T" (FsNode.dir [])
        [1, 2] = some (FsNode.dir cs5, 1, 1) ∧
      (FsNode.dir cs5).get ["b", "T", "b"] = some (FsNode.file "y") ∧
      (FsNode.dir cs5).get ["for-git", "b"] = some (FsNode.file "y") :=
  ⟨by decide, rfl, rfl,
    c6_batch_independence_amended [("b", FsNode.file "y")] [] "a" "b" "T"
      (FsNode.file "y") (by decide) (by decide) rfl rfl trivial trivial rfl⟩

theorem c4_counterexample_generation_merge :
    (backup_one [("a", FsNode.file "new")] "T"
        (FsNode.dir [("a", FsNode.dir [("T", FsNode.dir
          [("a", FsNode.dir [("old", FsNode.file "o")])])])]) "a").map
      (fun p => (p.2.1, p.2.2, p.1.get ["a", "T", "a", "old"],
        p.1.get ["a", "T", "a", "a"])) =
      some (1, 0, some (FsNode.file "o"), some (FsNode.file "new")) := by
  rfl

/-- Claim C4 (amended): remove-first semantics hold for the mirror publish —
whenever `update_for_git` reports a successful copy, the mirror path holds
exactly the copied source, whatever was there before — while generation
creation performs no removal at all: a directory-source copy onto an
existing generation destination raises (`shutil.copytree` refuses an
existing destination) instead of replacing it, and a file-source `copy2`
onto an existing directory destination deposits the file inside it (see
`c4_counterexample_generation_merge` for the merge this produces, refuting
the claim as stated). -/
theorem c4_remove_first_amended (cs : List (String × FsNode)) (item : String)
    (src rmir : FsNode)
    (hpub : update_for_git item src (FsNode.dir cs) = some (rmir, true)) :
    rmir.get ["for-git", item] = some src ∧
    ∀ (root : FsNode) (a ts : String) (x payload : FsNode),
      root.get [a, ts, a] = some x → copytreeAt root [a, ts, a] payload = none := by
  refine ⟨?_, fun root a ts x payload h => copytreeAt_none_of_get payload h⟩
  cases hmk : mkdirAt (FsNode.dir cs) ["for-git"] with
  | none =>
    simp only [update_for_git, hmk] at hpub
    exact Option.noConfusion hpub
  | some root1 =>
    cases hget : root1.get ["for-git", item] with
    | some w =>
      cases hrm : removeAt root1 ["for-git", item] with
      | none =>
        simp only [update_for_git, hmk, hget, hrm] at hpub
        exact Option.noConfusion hpub
      | some root2 =>
        have hr2 : root2.get ["for-git", item] = none := removeAt_get hrm
        cases src with
        | dir dcs =>
          cases hct : copytreeAt root2 ["for-git", item] (FsNode.dir dcs) with
          | none =>
            simp only [update_for_git, hmk, hget, hrm, hct, Option.some_inj,
              Prod.mk.injEq] at hpub
            exact absurd hpub.2 (by decide)
          | some root3 =>
            simp only [update_for_git, hmk, hget, hrm, hct, Option.some_inj,
              Prod.mk.injEq] at hpub
            rw [← hpub.1]
            exact copytreeAt_get hct
        | file c =>
          have hcp : copy2At root2 ["for-git", item] item c =
              writeFile root2 ["for-git", item] c := by
            rw [copy2At, hr2]
          cases hwf : writeFile root2 ["for-git", item] c with
          | none =>
            simp only [update_for_git, hmk, hget, hrm, hcp, hwf, Option.some_inj,
              Prod.mk.injEq] at hpub
            exact absurd hpub.2 (by decide)
          | some root3 =>
            simp only [update_for_git, hmk, hget, hrm, hcp, hwf, Option.some_inj,
              Prod.mk.injEq] at hpub
            rw [← hpub.1]
            exact writeFile_get hwf
    | none =>
      cases src with
      | dir dcs =>
        cases hct : copytreeAt root1 ["for-git", item] (FsNode.dir dcs) with
        | none =>
          simp only [update_for_git, hmk, hget, hct, Option.some_inj,
            Prod.mk.injEq] at hpub
          exact absurd hpub.2 (by decide)
        | some root3 =>
          simp only [update_for_git, hmk, hget, hct, Option.some_inj,
            Prod.mk.injEq] at hpub
          rw [← hpub.1]
          exact copytreeAt_get hct
      | file c =>
        have hcp : copy2At root1 ["for-git", item] item c =
            writeFile root1 ["for-git", item] c := by
          rw [copy2At, hget]
        cases hwf : writeFile root1 ["for-git", item] c with
        | none =>
          simp only [update_for_git, hmk, hget, hcp, hwf, Option.some_inj,
            Prod.mk.injEq] at hpub
          exact absurd hpub.2 (by decide)
        | some root3 =>
          simp only [update_for_git, hmk, hget, hcp, hwf, Option.some_inj,
            Prod.mk.injEq] at hpub
          rw [← hpub.1]
          exact writeFile_get hwf

theorem c4_remove_first_amended_witness :
    update_for_git "x" (FsNode.file "v")
        (FsNode.dir [("for-git", FsNode.dir
          [("x", FsNode.dir [("junk", FsNode.file "j")])])]) =
      some (FsNode.dir [("for-git", FsNode.dir [("x", FsNode.file "v")])], true) ∧
    ((FsNode.dir [("for-git", FsNode.dir [("x", FsNode.file "v")])]).get
        ["for-git", "x"] = some (FsNode.file "v") ∧
      ∀ (root : FsNode) (a ts : String) (x payload : FsNode),
        root.get [a, ts, a] = some x → copytreeAt root [a, ts, a] payload = none) :=
  ⟨rfl,
    c4_remove_first_amended
      [("for-git", FsNode.dir [("x", FsNode.dir [("junk", FsNode.file "j")])])]
      "x" (FsNode.file "v")
      (FsNode.dir [("for-git", FsNode.dir [("x", FsNode.file "v")])]) rfl⟩

theorem c7_counterexample_nonnumeric_abort :
    get_user_selection 5 ["1 x 2", "3"] = some (SelResult.chosen [3]) ∧
    (1 : Int) ∉ ([3] : List Int) := by
  constructor
  · rfl
  · decide

/-- Claim C7 (amended): inside one input line, out-of-range numeric tokens
are reported individually and skipped without aborting the parse — all
in-range tokens of the same line are still accepted — but a non-numeric
token raises `ValueError`, which is caught outside the token loop and
discards the entire line (no token of that line is accepted; the prompt
retries), refuting the claim as stated (see
`c7_counterexample_nonnumeric_abort`). -/
theorem c7_per_token_amended (max_num : Nat) (parts : List String) :
    ((∀ p ∈ parts, (pyInt p).isSome) →
      parse_tokens max_num parts =
        some ((parts.filterMap pyInt).filter
          fun n => decide (1 ≤ n ∧ n ≤ (max_num : Int)))) ∧
    (∀ p ∈ parts, pyInt p = none → parse_tokens max_num parts = none) := by
  induction parts with
  | nil =>
    refine ⟨fun _ => ?_, fun p hp => absurd hp (List.not_mem_nil p)⟩
    simp [parse_tokens]
  | cons p rest ih =>
    constructor
    · intro hall
      obtain ⟨num, hnum⟩ := Option.isSome_iff_exists.mp
        (hall p (List.mem_cons_self p rest))
      have hrest := ih.1 fun q hq => hall q (List.mem_cons_of_mem p hq)
      by_cases hr : 1 ≤ num ∧ num ≤ (max_num : Int)
      · simp only [parse_tokens, hnum, hrest, List.filterMap_cons, List.filter_cons,
          if_pos hr]
        simp [hr]
      · simp only [parse_tokens, hnum, hrest, List.filterMap_cons, List.filter_cons,
          if_neg hr]
        simp [hr]
    · intro q hq hqn
      rcases List.mem_cons.mp hq with rfl | hq2
      · simp only [parse_tokens, hqn]
      · cases hp : pyInt p with
        | none => simp only [parse_tokens, hp]
        | some num =>
          have hrest := ih.2 q hq2 hqn
          simp only [parse_tokens, hp, hrest]

theorem c7_per_token_amended_witness :
    (∀ p ∈ ["1", "99", "2"], (pyInt p).isSome) ∧
    parse_tokens 5 ["1", "99", "2"] =
      some ((["1", "99", "2"].filterMap pyInt).filter
        fun n => decide (1 ≤ n ∧ n ≤ (5 : Int))) :=
  ⟨by decide, (c7_per_token_amended 5 ["1", "99", "2"]).1 (by decide)⟩

theorem parse_tokens_range {max_num : Nat} {parts : List String} {res : List Int}
    (h : parse_tokens max_num parts = some res) :
    ∀ n ∈ res, 1 ≤ n ∧ n ≤ (max_num : Int) := by
  induction parts generalizing res with
  | nil =>
    simp only [parse_tokens, Option.some_inj] at h
    subst h
    intro n hn
    exact absurd hn (List.not_mem_nil n)
  | cons p rest ih =>
    cases hp : pyInt p with
    | none =>
      simp only [parse_tokens, hp] at h
      exact Option.noConfusion h
    | some num =>
      cases hrest : parse_tokens max_num rest with
      | none =>
        simp only [parse_tokens, hp, hrest] at h
        exact Option.noConfusion h
      | some ns2 =>
        have hih := ih hrest
        by_cases hr : 1 ≤ num ∧ num ≤ (max_num : Int)
        · simp only [parse_tokens, hp, hrest, if_pos hr, Option.some_inj] at h
          subst h
          intro n hn
          rcases List.mem_cons.mp hn with rfl | hn2
          · exact hr
          · exact hih n hn2
        · simp only [parse_tokens, hp, hrest, if_neg hr, Option.some_inj] at h
          subst h
          exact hih

theorem pyIndex_isSome {items : List String} {max_num : Nat} {n : Int}
    (hlen : items.length = max_num) (h1 : 1 ≤ n) (h2 : n ≤ (max_num : Nat)) :
    (pyIndex items (n - 1)).isSome := by
  have hlt : (n - 1).toNat < items.length := by
    rw [hlen]
    omega
  rw [pyIndex, if_pos (by omega)]
  rw [List.get?_eq_get hlt]
  rfl

theorem c8_counterexample_all_empty :
    get_user_selection 0 ["all"] = some (SelResult.chosen []) := by
  rfl

/-- Claim C8 (amended): whenever `get_user_selection(max_num)` returns a
list, every element `n` satisfies `1 <= n <= max_num`, so
`backup_items` never indexes `items[n - 1]` out of range when
`max_num = len(items)`; the list is non-empty whenever `max_num >= 1`, but
for `max_num = 0` the literal `all` returns the empty list (see
`c8_counterexample_all_empty`, refuting the unconditional non-emptiness of
the claim as stated). -/
theorem c8_selection_safety_amended (max_num : Nat) (inputs : List String)
    (ns : List Int)
    (h : get_user_selection max_num inputs = some (SelResult.chosen ns)) :
    (∀ n ∈ ns, 1 ≤ n ∧ n ≤ (max_num : Int)) ∧
    (1 ≤ max_num → ns ≠ []) ∧
    ∀ (items : List String) (n : Int), items.length = max_num → n ∈ ns →
      (pyIndex items (n - 1)).isSome := by
  induction inputs with
  | nil => simp [get_user_selection] at h
  | cons line rest ih =>
    simp only [get_user_selection] at h
    by_cases hq : pyLower (pyStrip line) = "q"
    · rw [if_pos hq] at h
      exact SelResult.noConfusion (Option.some_inj.mp h)
    · rw [if_neg hq] at h
      by_cases hh : pyLower (pyStrip line) = "h"
      · rw [if_pos hh] at h
        exact SelResult.noConfusion (Option.some_inj.mp h)
      · rw [if_neg hh] at h
        by_cases hall : pyLower (pyStrip line) = "all"
        · rw [if_pos hall] at h
          have hns : allIndices max_num = ns := SelResult.chosen.inj (Option.some_inj.mp h)
          subst hns
          have hrange : ∀ n ∈ allIndices max_num, 1 ≤ n ∧ n ≤ (max_num : Int) := by
            intro n hn
            simp only [allIndices, List.mem_map, List.mem_range] at hn
            obtain ⟨i, hi, he⟩ := hn
            rw [Int.ofNat_eq_coe] at he
            omega
          refine ⟨hrange, ?_, ?_⟩
          · intro hmax hc
            have hlen : (allIndices max_num).length = max_num := by
              simp only [allIndices, List.length_map, List.length_range]
            rw [hc] at hlen
            simp at hlen
            omega
          · intro items n hlen hn
            obtain ⟨h1, h2⟩ := hrange n hn
            exact pyIndex_isSome hlen h1 h2
        · rw [if_neg hall] at h
          cases hpt : parse_tokens max_num (pyTokens (pyStrip line)) with
          | none =>
            simp only [hpt] at h
            exact ih h
          | some ms =>
            cases ms with
            | nil =>
              simp only [hpt] at h
              exact ih h
            | cons m ms2 =>
              simp only [hpt] at h
              have hns : m :: ms2 = ns := SelResult.chosen.inj (Option.some_inj.mp h)
              subst hns
              have hrange := parse_tokens_range hpt
              refine ⟨hrange, fun _ => List.cons_ne_nil m ms2, ?_⟩
              intro items n hlen hn
              obtain ⟨h1, h2⟩ := hrange n hn
              exact pyIndex_isSome hlen h1 h2

theorem c8_selection_safety_amended_witness :
    get_user_selection 3 ["0 2 9"] = some (SelResult.chosen [2]) ∧
    ((∀ n ∈ ([2] : List Int), 1 ≤ n ∧ n ≤ (3 : Int)) ∧
      (1 ≤ 3 → ([2] : List Int) ≠ []) ∧
      ∀ (items : List String) (n : Int), items.length = 3 → n ∈ ([2] : List Int) →
        (pyIndex items (n - 1)).isSome) :=
  ⟨rfl, c8_selection_safety_amended 3 ["0 2 9"] [2] rfl⟩
